import Mathlib

/-!
Verification of the `sitrep` progress-reporting core.

A shallow embedding of the library's data model and operations:

* `Task`, `State`, `PriorityLevel`, `Event`, `ControlError` mirror the
  corresponding Rust types (`src/task.rs`, `src/priority.rs`, `src/event.rs`,
  `src/error.rs`; the `Task` fields `state`, `is_cancelable`, `is_pausable`
  and the helper `effective_discrete` are absent from the shipped revision of
  `src/task.rs` and are modelled from the specification, which defines them).
* `Ptree` embeds the tree of `Progress` nodes (`src/progress.rs`): each node
  carries its id, task, atomic minimum-priority override, `last_change`
  generation, the presence of its weak parent back-reference (`linked`), and
  an observer tag.  Children are a list, standing for the snapshot order of
  the `HashMap` children map.
* Machine integers (`usize`) are embedded as `Nat` with explicit wrapping
  `% usizeSize` or saturation at `usizeMax` exactly where the source wraps or
  saturates.

Operations are addressed by a `Path` (list of child indices from the root),
which stands for invoking a method on the `Arc<Progress>` of the node at that
path.  Event emission is returned as an explicit event list in program order.
-/

namespace Sitrep

/-- Number of values of `usize` (64-bit platform): wrap-around modulus of the
generation counter (`Generation.add` in `src/generation.rs` uses
`usize::overflowing_add`). -/
def usizeSize : Nat := 2 ^ 64

/-- Largest `usize` value; `usize::saturating_add` saturates here. -/
def usizeMax : Nat := usizeSize - 1

/-- Embeds `PriorityLevel` from `src/priority.rs`: Trace < Debug < Info <
Warn < Error. -/
inductive PriorityLevel where
  | trace
  | debug
  | info
  | warn
  | error
deriving DecidableEq, Repr

/-- Numeric representation of a priority level (the `repr(u8)` discriminants
1..5 from `src/priority.rs`). -/
def PriorityLevel.toNat : PriorityLevel → Nat
  | .trace => 1
  | .debug => 2
  | .info => 3
  | .warn => 4
  | .error => 5

instance : LT PriorityLevel := ⟨fun a b => a.toNat < b.toNat⟩

instance (a b : PriorityLevel) : Decidable (a < b) :=
  inferInstanceAs (Decidable (a.toNat < b.toNat))

/-- Embeds the task lifecycle `State` (`Running`, `Paused`, `Finished`,
`Canceled`).  Modelled from the spec: the shipped `src/task.rs` revision
predates the `State` enum, which `src/progress.rs` imports from it. -/
inductive State where
  | running
  | paused
  | finished
  | canceled
deriving DecidableEq, Repr

/-- Embeds `Task`.  Modelled from the spec for the fields missing from the
shipped `src/task.rs` revision (`state`, `is_cancelable`, `is_pausable`);
`label`, `completed`, `total` are as in `src/task.rs`. -/
structure Task where
  label : Option String
  completed : Nat
  total : Nat
  state : State
  is_cancelable : Bool
  is_pausable : Bool
deriving DecidableEq, Repr

/-- Modelled from the spec: `Task::effective_discrete` (used by
`Progress::report` and `Progress::partial_report` but absent from the shipped
`src/task.rs` revision) returns `(min(completed, total), max(completed,
total))`. -/
def Task.effective_discrete (t : Task) : Nat × Nat :=
  (min t.completed t.total, max t.completed t.total)

/-- Embeds `ControlError` from `src/error.rs`. -/
inductive ControlError where
  | notPausable
  | notCancelable
deriving DecidableEq, Repr

/-- Embeds `Event` from `src/event.rs`.  `update`/`detachment` carry the
progress id; `message` carries id, message text and priority. -/
inductive Event where
  | update (id : Nat)
  | message (id : Nat) (msg : String) (priority : PriorityLevel)
  | detachment (id : Nat)
  | generationOverflow
deriving DecidableEq, Repr

/-- True exactly on `Event::Update` events. -/
def Event.isUpdate : Event → Bool
  | .update _ => true
  | _ => false

/-- Per-node data of a `Progress` (`src/progress.rs`): id, task, the atomic
minimum-priority override (`None` = fall back to the global default), the
`last_change` generation (raw `usize`), whether the weak parent
back-reference is set (`linked`), and a tag naming the node's observer. -/
structure NodeData where
  id : Nat
  task : Task
  override : Option PriorityLevel
  lastChange : Nat
  linked : Bool
  obs : Nat
deriving DecidableEq, Repr

/-- The tree of `Progress` nodes: node data plus the children snapshot. -/
inductive Ptree where
  | node (data : NodeData) (children : List Ptree)

/-- Data of the root node of a subtree. -/
def Ptree.data : Ptree → NodeData
  | .node d _ => d

/-- Children of the root node of a subtree. -/
def Ptree.children : Ptree → List Ptree
  | .node _ cs => cs

mutual

/-- Preorder (depth-first) listing of all node data of a subtree. -/
def preD : Ptree → List NodeData
  | .node d cs => d :: preDL cs

/-- Preorder listing over a list of subtrees, in order. -/
def preDL : List Ptree → List NodeData
  | [] => []
  | c :: cs => preD c ++ preDL cs

end

/-- Preorder listing of the tasks of a subtree. -/
def preTasks (t : Ptree) : List Task := (preD t).map (·.task)

/-- Preorder listing of tasks over a list of subtrees. -/
def preTasksL (cs : List Ptree) : List Task := (preDL cs).map (·.task)

/-! ### List index helpers

Own index/modify helpers for children lists, with the small lemmas the path
reasoning needs. -/

/-- Element of a list at an index, if present. -/
def getIdx? {α : Type} : List α → Nat → Option α
  | [], _ => none
  | a :: _, 0 => some a
  | _ :: as, n + 1 => getIdx? as n

/-- Apply `f` to the element of a list at an index, if present. -/
def listModify {α : Type} : List α → Nat → (α → α) → List α
  | [], _, _ => []
  | a :: as, 0, f => f a :: as
  | a :: as, n + 1, f => a :: listModify as n f

/-! ### Paths into the tree -/

/-- A path from the root of a tree: the sequence of child indices followed. -/
abbrev Path := List Nat

/-- Subtree rooted at the node a path leads to, if the path is valid. -/
def getTree? : Ptree → Path → Option Ptree
  | t, [] => some t
  | .node _ cs, i :: p =>
    match getIdx? cs i with
    | some c => getTree? c p
    | none => none

/-- Node data at a path, if the path is valid. -/
def getData? (t : Ptree) (p : Path) : Option NodeData := (getTree? t p).map Ptree.data

/-- Whether a path leads to a node of the tree. -/
def validPath (t : Ptree) (p : Path) : Bool := (getTree? t p).isSome

/-- The `last_change` generation of the node at a path, if any. -/
def lcAt (t : Ptree) (p : Path) : Option Nat := (getData? t p).map (·.lastChange)

/-- Node data found along a path, root first, target last (Rust: the chain of
nodes whose locks/atomics the recursive walk can touch). -/
def pathData? : Ptree → Path → Option (List NodeData)
  | .node d _, [] => some [d]
  | .node d cs, i :: p =>
    match getIdx? cs i with
    | some c => (pathData? c p).map (d :: ·)
    | none => none

/-- Rewrite the node data at a path (leaves the tree unchanged when the path
is invalid). -/
def mapAt : Ptree → Path → (NodeData → NodeData) → Ptree
  | .node d cs, [], f => .node (f d) cs
  | .node d cs, i :: p, f => .node d (listModify cs i (fun c => mapAt c p f))

/-- Append a new child to the children of the node at a path (models the
`children.insert(id, child)` on that node; the `HashMap` snapshot order is
represented by appending). -/
def appendAt : Ptree → Path → Ptree → Ptree
  | .node d cs, [], c => .node d (cs ++ [c])
  | .node d cs, i :: p, c => .node d (listModify cs i (fun s => appendAt s p c))

/-! ### The generation clock (`Progress::bump_last_change`)

`bump_last_change` in `src/progress.rs` walks up the weak parent chain: while
the parent back-reference upgrades, it recurses into the parent and then
`swap`s the returned generation into its own `last_change`; at the first node
without a parent it `fetch_add(1)`s its own counter (with
`usize::overflowing_add` wrap-around) and, on overflow, emits a single
`GenerationOverflow` event.  On the path of nodes from the tree root to the
bumping node, the chain walked is the suffix starting at the last node whose
back-reference is absent (`linked = false`); all nodes of that suffix end up
holding the incremented generation. -/

/-- Index of the last `false` in a list of `linked` flags (`none` if all are
`true`): the node at which the upward `bump_last_change` walk stops. -/
def lastUnlinked : List Bool → Option Nat
  | [] => none
  | b :: bs =>
    match lastUnlinked bs with
    | some k => some (k + 1)
    | none => if b then none else some 0

/-- Index (among the path nodes, root = 0) of the node whose counter is
`fetch_add`ed by a bump issued at the path's target. -/
def effRootIdx (flags : List Bool) : Nat := (lastUnlinked flags).getD 0

/-- Store generation `g` into the `last_change` of every node on the path at
depth ≥ `j` (the swaps performed by the upward walk, root-down view). -/
def stampAlong : Ptree → Path → Nat → Nat → Ptree
  | .node d cs, [], j, g => .node (if j = 0 then { d with lastChange := g } else d) cs
  | .node d cs, i :: p, j, g =>
    .node (if j = 0 then { d with lastChange := g } else d)
      (listModify cs i (fun c => stampAlong c p (j - 1) g))

/-- Embeds `Progress::bump_last_change` issued at the node a path leads to.
Returns the tree with the new stamps, the new generation, and the events
emitted (a `GenerationOverflow` exactly when the counter wrapped).  A call on
an invalid path does not arise in the source and leaves the tree unchanged. -/
def bumpAt (t : Ptree) (p : Path) : Ptree × Nat × List Event :=
  match pathData? t p with
  | none => (t, 0, [])
  | some ds =>
    let j := effRootIdx (ds.map (·.linked))
    let base := match getIdx? ds j with | some d => d.lastChange | none => 0
    let g := (base + 1) % usizeSize
    let evs := if base + 1 = usizeSize then [Event.generationOverflow] else []
    (stampAlong t p j g, g, evs)

mutual

/-- Every node of the subtree has its parent back-reference set. -/
def allLinkedB : Ptree → Bool
  | .node d cs => d.linked && allLinkedListB cs

/-- `allLinkedB` over a list of subtrees. -/
def allLinkedListB : List Ptree → Bool
  | [] => true
  | c :: cs => allLinkedB c && allLinkedListB cs

end

/-- A well-formed tree as built by `Progress::new` and
`Progress::new_with_parent`: the root has no parent back-reference and every
other node points at its parent. -/
def wellLinkedB : Ptree → Bool
  | .node d cs => !d.linked && allLinkedListB cs

/-! ### `Progress::update` -/

/-- Embeds `Progress::update` invoked on the node a path leads to: run the
mutator on the task under the write lock, release it, `bump_last_change`,
then emit one `Update` event carrying the node's id. -/
def updateAt (t : Ptree) (p : Path) (f : Task → Task) : Ptree × List Event :=
  let t1 := mapAt t p (fun d => { d with task := f d.task })
  let r := bumpAt t1 p
  match getData? r.1 p with
  | some d => (r.1, r.2.2 ++ [Event.update d.id])
  | none => (r.1, r.2.2)

/-! ### Messages and the priority filter (`Progress::message`) -/

/-- Embeds `Progress::min_priority_level`: the node's atomic override if set,
else the process-wide default (`global_min_priority_level`), which this
embedding takes as a parameter. -/
def min_priority_level (d : NodeData) (globalDefault : PriorityLevel) : PriorityLevel :=
  d.override.getD globalDefault

/-- Embeds `Progress::message` on a node: when `level` is below the node's
effective minimum priority the thunk is not run and nothing is emitted;
otherwise the thunk runs once and one `Message` event is emitted carrying the
node's id, the produced text, and the level.  The first component counts how
often the thunk was invoked. -/
def messageOp (globalDefault : PriorityLevel) (d : NodeData) (m : Unit → String)
    (level : PriorityLevel) : Nat × List Event :=
  if level < min_priority_level d globalDefault then (0, [])
  else (1, [Event.message d.id (m ()) level])

/-! ### Child creation (`Progress::new_with_parent`) and attachment
(`Progress::attach_child`) -/

/-- Embeds `Progress::new_with_parent` creating a child of the node at `p`
with the given task and fresh id `nid`: the child (observer inherited from
the parent, override initialised to `Trace` as by `new_impl`, `last_change`
initialised to `Generation::MIN`, parent back-reference set) is inserted into
the parent's children map and the parent emits one `Update` event.  Note the
source performs no `bump_last_change`. -/
def new_with_parent (t : Ptree) (p : Path) (task : Task) (nid : Nat) : Ptree × List Event :=
  match getTree? t p with
  | none => (t, [])
  | some s =>
    let child : Ptree := .node
      { id := nid, task := task, override := some .trace, lastChange := 0,
        linked := true, obs := s.data.obs } []
    (appendAt t p child, [Event.update s.data.id])

/-- Embeds `Progress::attach_child` attaching the root `c` of another tree to
the node at `p`: `fetch_max` the child's `last_change` into the parent's,
swap the child's observer for the parent's (returning the prior one), insert
the child into the parent's children map, `bump_last_change` on the parent,
and emit an `Update` event for the parent.  Note the source never sets the
child's parent back-reference, so `c.linked` is left as is. -/
def attach_child (t : Ptree) (p : Path) (c : Ptree) : Ptree × List Event × Option Nat :=
  match getTree? t p with
  | none => (t, [], none)
  | some s =>
    let t1 := mapAt t p (fun d => { d with lastChange := max d.lastChange c.data.lastChange })
    let prior := c.data.obs
    let c1 : Ptree := .node { c.data with obs := s.data.obs } c.children
    let t2 := appendAt t1 p c1
    let r := bumpAt t2 p
    (r.1, r.2.2 ++ [Event.update s.data.id], some prior)

/-! ### Control operations (`Controller::pause` / `resume` / `cancel`)

Each of the three methods in `src/progress.rs` has the same shape: check the
capability flag of `self` (returning the control error without mutating when
it is absent), mutate the state under the write lock, release the lock,
snapshot the children, and recurse into each child in order, aborting at the
first error.  None of the three contains an `observer.observe` call, so the
event list produced is empty by construction. -/

mutual

/-- The common traversal of `pause`/`resume`/`cancel`: `can` is the
capability check, `step` the state mutation, `e` the error returned when the
check fails.  Returns the mutated tree, the emitted events (none — the source
emits nothing here), and the result. -/
def controlT (can : Task → Bool) (step : Task → Task) (e : ControlError) :
    Ptree → Ptree × List Event × Except ControlError Unit
  | .node d cs =>
    if can d.task then
      let r := controlL can step e cs
      (.node { d with task := step d.task } r.1, r.2.1, r.2.2)
    else (.node d cs, [], .error e)

/-- Recursion of a control operation over the children snapshot, aborting at
the first child that fails. -/
def controlL (can : Task → Bool) (step : Task → Task) (e : ControlError) :
    List Ptree → List Ptree × List Event × Except ControlError Unit
  | [] => ([], [], .ok ())
  | c :: cs =>
    match controlT can step e c with
    | (c', evs, .ok _) =>
      let r := controlL can step e cs
      (c' :: r.1, evs ++ r.2.1, r.2.2)
    | (c', evs, .error er) => (c' :: cs, evs, .error er)

end

/-- State mutation of `Controller::pause`: `Running` becomes `Paused`. -/
def pauseStep (tk : Task) : Task :=
  if tk.state = .running then { tk with state := .paused } else tk

/-- State mutation of `Controller::resume`: `Paused` becomes `Running`. -/
def resumeStep (tk : Task) : Task :=
  if tk.state = .paused then { tk with state := .running } else tk

/-- State mutation of `Controller::cancel`: `Paused` or `Running` becomes
`Canceled`. -/
def cancelStep (tk : Task) : Task :=
  if tk.state = .paused ∨ tk.state = .running then { tk with state := .canceled } else tk

/-- Embeds `Controller::pause` invoked on (the subtree of) a node. -/
def pauseT : Ptree → Ptree × List Event × Except ControlError Unit :=
  controlT (fun tk => tk.is_pausable) pauseStep .notPausable

/-- Embeds `Controller::resume` invoked on (the subtree of) a node. -/
def resumeT : Ptree → Ptree × List Event × Except ControlError Unit :=
  controlT (fun tk => tk.is_pausable) resumeStep .notPausable

/-- Embeds `Controller::cancel` invoked on (the subtree of) a node. -/
def cancelT : Ptree → Ptree × List Event × Except ControlError Unit :=
  controlT (fun tk => tk.is_cancelable) cancelStep .notCancelable

/-! ### Reports (`src/report.rs` and `Progress::report` /
`Progress::partial_report`)

`Report` carries the aggregated projection of a subtree.  The shipped
`src/report.rs` predates the `state` field (present in the revision
`src/progress.rs` and its tests build against); the field is modelled from
the spec and threaded through untouched. -/

/-- Embeds `Report`: progress id, label, aggregated completed/total, derived
fraction and indeterminacy, state, owned subreports, and the `last_change`
snapshot. -/
inductive Report where
  | mk (progress_id : Nat) (label : Option String) (completed : Nat) (total : Nat)
      (fraction : Rat) (is_indeterminate : Bool) (state : State)
      (subreports : List Report) (last_change : Nat)

/-- The `progress_id` field. -/
def Report.progress_id : Report → Nat
  | .mk x _ _ _ _ _ _ _ _ => x

/-- The `label` field. -/
def Report.label : Report → Option String
  | .mk _ x _ _ _ _ _ _ _ => x

/-- The `completed` field. -/
def Report.completed : Report → Nat
  | .mk _ _ x _ _ _ _ _ _ => x

/-- The `total` field. -/
def Report.total : Report → Nat
  | .mk _ _ _ x _ _ _ _ _ => x

/-- The `fraction` field. -/
def Report.fraction : Report → Rat
  | .mk _ _ _ _ x _ _ _ _ => x

/-- The `is_indeterminate` field. -/
def Report.is_indeterminate : Report → Bool
  | .mk _ _ _ _ _ x _ _ _ => x

/-- The `state` field. -/
def Report.state : Report → State
  | .mk _ _ _ _ _ _ x _ _ => x

/-- The `subreports` field. -/
def Report.subreports : Report → List Report
  | .mk _ _ _ _ _ _ _ x _ => x

/-- The `last_change` field. -/
def Report.last_change : Report → Nat
  | .mk _ _ _ _ _ _ _ _ x => x

/-- Embeds `Report::discrete`: the stored `(completed, total)` pair. -/
def Report.discrete (r : Report) : Nat × Nat := (r.completed, r.total)

/-- Embeds the private `Report::completed(completed, total)` clamp:
`completed.min(total)`. -/
def Report.clampCompleted (completed total : Nat) : Nat := min completed total

/-- Embeds the private `Report::total(completed, total)`:
`completed.max(total)` — note `Report::new` calls it with the already clamped
`completed`. -/
def Report.clampTotal (completed total : Nat) : Nat := max completed total

/-- Embeds the private `Report::fraction`, with `f64` division modelled as
exact rational division: `(0, 0) ↦ 0`, `(_, 0) ↦ 1`, else `completed /
total`. -/
def Report.fractionOf (completed total : Nat) : Rat :=
  if completed = 0 ∧ total = 0 then 0
  else if total = 0 then 1
  else (completed : Rat) / (total : Rat)

/-- Embeds the private `Report::is_indeterminate`: both aggregates zero. -/
def Report.indeterminateOf (completed total : Nat) : Bool :=
  completed = 0 && total = 0

/-- Embeds `Report::new` (with the `state` argument of the revision
`src/progress.rs` calls, threaded through): shadows `completed` with the
clamped value, recomputes `total`, `fraction` and `is_indeterminate` from the
shadowed pair. -/
def Report.new (progress_id : Nat) (label : Option String) (completed total : Nat)
    (state : State) (subreports : List Report) (last_change : Nat) : Report :=
  let completed2 := Report.clampCompleted completed total
  let total2 := Report.clampTotal completed2 total
  let fraction := Report.fractionOf completed2 total2
  let indet := Report.indeterminateOf completed2 total2
  .mk progress_id label completed2 total2 fraction indet state subreports last_change

/-- Embeds `usize::saturating_add`. -/
def satAdd (x y : Nat) : Nat := min (x + y) usizeMax

mutual

/-- Embeds the private `Progress::report`: snapshot `last_change`, produce
the subreports of the children snapshot, fold the subreports' discrete pairs
onto the own effective pair with saturating addition, and build the report
from the own task projection. -/
def reportT : Ptree → Report
  | .node d cs =>
    let subreports := reportL cs
    let own := d.task.effective_discrete
    let agg := subreports.foldl
      (fun sum item => (satAdd sum.1 item.discrete.1, satAdd sum.2 item.discrete.2)) own
    Report.new d.id d.task.label agg.1 agg.2 d.task.state subreports d.lastChange

/-- `Progress::report` mapped over a children snapshot, in order. -/
def reportL : List Ptree → List Report
  | [] => []
  | c :: cs => reportT c :: reportL cs

end

mutual

/-- Embeds `Reporter::partial_report` (the delta report) from
`src/progress.rs`: return `none` when this node's `last_change` is not past
the baseline; otherwise gather recent subreports from the children (children
without recent changes contribute their current effective pair but no
subreport), and build the report.  The own and gathered pairs are combined
with plain wrapping `usize` addition (the source uses unchecked `+` here, in
contrast to the saturating fold of `report`). -/
def deltaReport : Ptree → Nat → Option Report
  | .node d cs, baseline =>
    if d.lastChange ≤ baseline then none
    else
      let sub := deltaFold cs baseline
      if sub.1.isEmpty ∧ d.lastChange ≤ baseline then none
      else
        let own := d.task.effective_discrete
        some (Report.new d.id d.task.label ((own.1 + sub.2.1) % usizeSize)
          ((own.2 + sub.2.2) % usizeSize) d.task.state sub.1 d.lastChange)

/-- The children loop of `partial_report`: collects the recent subreports and
the saturating sums of the children's contributed pairs. -/
def deltaFold : List Ptree → Nat → List Report × Nat × Nat
  | [], _ => ([], 0, 0)
  | c :: cs, baseline =>
    let contrib :=
      match deltaReport c baseline with
      | some r => (some r, r.discrete)
      | none => (none, c.data.task.effective_discrete)
    let rest := deltaFold cs baseline
    (match contrib.1 with
      | some r => r :: rest.1
      | none => rest.1,
      satAdd contrib.2.1 rest.2.1, satAdd contrib.2.2 rest.2.2)

end

mutual

/-- Embeds the private `Report::prune` from `src/report.rs`: first
`retain_mut` the subreports recursively, then report whether this report's
own `last_change` reaches the cutoff. -/
def pruneStep (minLastChange : Nat) : Report → Report × Bool
  | .mk id lb c t fr ind st subs lc =>
    (.mk id lb c t fr ind st (pruneSubs minLastChange subs) lc,
      decide (minLastChange ≤ lc))

/-- The `retain_mut` over subreports: keep the recursively pruned subreport
exactly when its own `prune` returned `true`. -/
def pruneSubs (minLastChange : Nat) : List Report → List Report
  | [] => []
  | r :: rs =>
    match pruneStep minLastChange r with
    | (r', true) => r' :: pruneSubs minLastChange rs
    | (_, false) => pruneSubs minLastChange rs

end

/-- Embeds `Report::into_pruned`: `Some` of the pruned report when its own
`prune` succeeded, else `None`. -/
def Report.into_pruned (r : Report) (minLastChange : Nat) : Option Report :=
  match pruneStep minLastChange r with
  | (r', true) => some r'
  | (_, false) => none

/-- Embeds `Report::to_pruned`: clone, then `into_pruned` (identical in a
functional embedding). -/
def Report.to_pruned (r : Report) (minLastChange : Nat) : Option Report :=
  r.into_pruned minLastChange

mutual

/-- Stated from the claim's words, for comparison with `into_pruned`: keep,
at every depth, exactly the subreports whose `last_change` is at least the
cutoff, all other fields untouched. -/
def prunedSpec (g : Nat) : Report → Report
  | .mk id lb c t fr ind st subs lc => .mk id lb c t fr ind st (prunedSpecL g subs) lc

/-- `prunedSpec` over a subreport list: filter by `last_change ≥ g`, recurse
into the survivors. -/
def prunedSpecL (g : Nat) : List Report → List Report
  | [] => []
  | r :: rs =>
    if g ≤ r.last_change then prunedSpec g r :: prunedSpecL g rs else prunedSpecL g rs

end

/-- Truncation at `usize::MAX`; `satAdd x y = tmin (x + y)`. -/
def tmin (x : Nat) : Nat := min x usizeMax

/-- Saturating sum of a list, stated from the claim's words ("the sum … with
saturating addition"). -/
def satSum (l : List Nat) : Nat := l.foldr satAdd 0

/-- All `completed`/`total` raw fields of the subtree fit in `usize` (the
machine invariant of the Rust representation). -/
def boundedB (t : Ptree) : Bool :=
  (preD t).all fun d => decide (d.task.completed < usizeSize) &&
    decide (d.task.total < usizeSize)

/-! ### Characterisation of the control traversal -/

/-- Index of the first element satisfying `p` (length if none): the position,
in depth-first preorder, of the first node a control traversal fails at. -/
def firstIdx {α : Type} (p : α → Bool) : List α → Nat
  | [] => 0
  | a :: l => if p a then 0 else firstIdx p l + 1

/-- The full characterisation of one control operation on a subtree: the
preorder tasks of the result are the input tasks with `step` applied to the
strict prefix before the first failing node (everything when none fails); the
result is the error exactly when some node fails; and no event is emitted. -/
def charT (can : Task → Bool) (step : Task → Task) (e : ControlError) (t : Ptree) : Prop :=
  preTasks (controlT can step e t).1 =
    ((preTasks t).take (firstIdx (fun tk => !can tk) (preTasks t))).map step ++
      (preTasks t).drop (firstIdx (fun tk => !can tk) (preTasks t)) ∧
  (controlT can step e t).2.2 =
    (if firstIdx (fun tk => !can tk) (preTasks t) < (preTasks t).length
     then Except.error e else Except.ok ()) ∧
  (controlT can step e t).2.1 = []

/-- `charT` for the children loop `controlL`. -/
def charL (can : Task → Bool) (step : Task → Task) (e : ControlError)
    (cs : List Ptree) : Prop :=
  preTasksL (controlL can step e cs).1 =
    ((preTasksL cs).take (firstIdx (fun tk => !can tk) (preTasksL cs))).map step ++
      (preTasksL cs).drop (firstIdx (fun tk => !can tk) (preTasksL cs)) ∧
  (controlL can step e cs).2.2 =
    (if firstIdx (fun tk => !can tk) (preTasksL cs) < (preTasksL cs).length
     then Except.error e else Except.ok ()) ∧
  (controlL can step e cs).2.1 = []

/-- A three-node chain (root, child, grandchild), every node cancelable and
pausable, states Running / Paused / Running, built as
`Progress::new` + two `new_with_parent` calls would leave it. -/
def chain3 : Ptree :=
  .node { id := 0,
          task := { label := none, completed := 0, total := 0, state := .running,
                    is_cancelable := true, is_pausable := true },
          override := some .trace, lastChange := 0, linked := false, obs := 0 }
    [.node { id := 1,
             task := { label := none, completed := 0, total := 0, state := .paused,
                       is_cancelable := true, is_pausable := true },
             override := some .trace, lastChange := 0, linked := true, obs := 0 }
      [.node { id := 2,
               task := { label := none, completed := 0, total := 0, state := .running,
                         is_cancelable := true, is_pausable := true },
               override := some .trace, lastChange := 0, linked := true, obs := 0 } []]]

/-- The node data of the middle node of `chain3`. -/
def chain3mid : NodeData :=
  { id := 1,
    task := { label := none, completed := 0, total := 0, state := .paused,
              is_cancelable := true, is_pausable := true },
    override := some .trace, lastChange := 0, linked := true, obs := 0 }

/-- A default task: no label, zero units, Running, no capabilities. -/
def task0 : Task :=
  { label := none, completed := 0, total := 0, state := .running,
    is_cancelable := false, is_pausable := false }

/-! ### C6: the message filter -/

/-- Stated from the claim's words: the node's atomic override if set, else
the process-wide default. -/
def effectiveMin (d : NodeData) (globalDefault : PriorityLevel) : PriorityLevel :=
  match d.override with
  | some o => o
  | none => globalDefault

/-! ### C3: `attach_child` and the destination clock -/

/-- A stand-alone destination root for the attach scenario. -/
def c3root : Ptree :=
  .node { id := 10, task := task0, override := some .trace, lastChange := 0,
          linked := false, obs := 0 } []

/-- A stand-alone tree (root of another tree, with its own observer tag `1`)
to be attached under `c3root`. -/
def c3child : Ptree :=
  .node { id := 11, task := task0, override := some .trace, lastChange := 0,
          linked := false, obs := 1 } []

/-- A three-node chain with nonzero unit counters for the aggregation
witness. -/
def chain8 : Ptree :=
  .node { id := 0, task := { task0 with completed := 1, total := 2 },
          override := some .trace, lastChange := 0, linked := false, obs := 0 }
    [.node { id := 1, task := { task0 with completed := 3, total := 1 },
             override := some .trace, lastChange := 0, linked := true, obs := 0 }
      [.node { id := 2, task := { task0 with completed := 4, total := 10 },
               override := some .trace, lastChange := 0, linked := true, obs := 0 } []]]

/-! Theorems. -/

/-- Strong induction over `Ptree`: prove a property of a node from the
property at all of its children. -/
theorem Ptree.strongInd {P : Ptree → Prop}
    (h : ∀ d cs, (∀ c ∈ cs, P c) → P (Ptree.node d cs)) : ∀ t, P t
  | .node d cs => h d cs (fun c hc => Ptree.strongInd h c)
termination_by t => sizeOf t
decreasing_by
  simp only [Ptree.node.sizeOf_spec]
  have := List.sizeOf_lt_of_mem hc
  omega

theorem preTasks_node (d : NodeData) (cs : List Ptree) :
    preTasks (.node d cs) = d.task :: preTasksL cs := by
  simp [preTasks, preTasksL, preD]

theorem preTasksL_nil : preTasksL [] = [] := rfl

theorem preTasksL_cons (c : Ptree) (cs : List Ptree) :
    preTasksL (c :: cs) = preTasks c ++ preTasksL cs := by
  simp [preTasks, preTasksL, preDL]

theorem getIdx?_listModify_self {α : Type} (l : List α) (i : Nat) (f : α → α) :
    getIdx? (listModify l i f) i = (getIdx? l i).map f := by
  induction l generalizing i with
  | nil => simp [listModify, getIdx?]
  | cons a as ih =>
    cases i with
    | zero => simp [listModify, getIdx?]
    | succ n => simpa [listModify, getIdx?] using ih n

theorem getIdx?_listModify_ne {α : Type} (l : List α) (i j : Nat) (f : α → α)
    (h : j ≠ i) : getIdx? (listModify l i f) j = getIdx? l j := by
  induction l generalizing i j with
  | nil => simp [listModify]
  | cons a as ih =>
    cases i with
    | zero =>
      cases j with
      | zero => exact absurd rfl h
      | succ m => simp [listModify, getIdx?]
    | succ n =>
      cases j with
      | zero => simp [listModify, getIdx?]
      | succ m =>
        simp only [listModify, getIdx?]
        exact ih n m (fun he => h (by simp [he]))

theorem getIdx?_append_lt {α : Type} (l₁ l₂ : List α) (i : Nat)
    (h : i < l₁.length) : getIdx? (l₁ ++ l₂) i = getIdx? l₁ i := by
  induction l₁ generalizing i with
  | nil => simp at h
  | cons a as ih =>
    cases i with
    | zero => simp [getIdx?]
    | succ n =>
      simp only [List.cons_append, getIdx?]
      exact ih n (by simpa using h)

theorem getIdx?_append_length {α : Type} (l₁ l₂ : List α) :
    getIdx? (l₁ ++ l₂) l₁.length = getIdx? l₂ 0 := by
  induction l₁ with
  | nil => simp
  | cons a as ih => simpa [getIdx?] using ih

theorem getIdx?_isSome_lt {α : Type} (l : List α) (i : Nat)
    (h : (getIdx? l i).isSome) : i < l.length := by
  induction l generalizing i with
  | nil => simp [getIdx?] at h
  | cons a as ih =>
    cases i with
    | zero => simp
    | succ n =>
      simp only [getIdx?] at h
      have := ih n h
      simpa using Nat.succ_lt_succ this

theorem firstIdx_le_length {α : Type} (p : α → Bool) (l : List α) :
    firstIdx p l ≤ l.length := by
  induction l with
  | nil => simp [firstIdx]
  | cons a l ih =>
    simp only [firstIdx, List.length_cons]
    split
    · omega
    · omega

theorem firstIdx_eq_length_iff {α : Type} (p : α → Bool) (l : List α) :
    firstIdx p l = l.length ↔ ∀ a ∈ l, p a = false := by
  induction l with
  | nil => simp [firstIdx]
  | cons a l ih =>
    simp only [firstIdx, List.length_cons, List.mem_cons]
    constructor
    · intro h
      split at h
      · omega
      · rename_i hpa
        have hl := ih.mp (by omega)
        intro b hb
        rcases hb with hb | hb
        · subst hb; simpa using hpa
        · exact hl b hb
    · intro h
      have hpa : p a = false := h a (Or.inl rfl)
      rw [if_neg (by simp [hpa])]
      rw [ih.mpr (fun b hb => h b (Or.inr hb))]

theorem firstIdx_append_none {α : Type} (p : α → Bool) (l₁ l₂ : List α)
    (h : ∀ a ∈ l₁, p a = false) :
    firstIdx p (l₁ ++ l₂) = l₁.length + firstIdx p l₂ := by
  induction l₁ with
  | nil => simp
  | cons a l ih =>
    have hpa : p a = false := h a (by simp)
    simp only [List.cons_append, firstIdx, List.append_eq, hpa, Bool.false_eq_true,
      if_false, List.length_cons]
    rw [ih (fun b hb => h b (by simp [hb]))]
    omega

theorem firstIdx_append_lt {α : Type} (p : α → Bool) (l₁ l₂ : List α)
    (h : firstIdx p l₁ < l₁.length) :
    firstIdx p (l₁ ++ l₂) = firstIdx p l₁ := by
  induction l₁ with
  | nil => simp [firstIdx] at h
  | cons a l ih =>
    simp only [List.cons_append, firstIdx]
    by_cases hpa : p a
    · simp [hpa]
    · simp only [firstIdx, List.append_eq, if_neg hpa, List.length_cons] at h ⊢
      rw [ih (by omega)]

theorem take_append_add {α : Type} (l₁ l₂ : List α) (n : Nat) :
    (l₁ ++ l₂).take (l₁.length + n) = l₁ ++ l₂.take n := by
  induction l₁ with
  | nil => simp
  | cons a l ih => simpa [List.take, Nat.succ_add] using ih

theorem drop_append_add {α : Type} (l₁ l₂ : List α) (n : Nat) :
    (l₁ ++ l₂).drop (l₁.length + n) = l₂.drop n := by
  induction l₁ with
  | nil => simp
  | cons a l ih => simpa [List.drop, Nat.succ_add] using ih

theorem take_append_le {α : Type} (l₁ l₂ : List α) (k : Nat) (h : k ≤ l₁.length) :
    (l₁ ++ l₂).take k = l₁.take k := by
  induction l₁ generalizing k with
  | nil => simp_all
  | cons a l ih =>
    cases k with
    | zero => simp
    | succ n => simpa [List.take] using ih n (by simpa using h)

theorem drop_append_le {α : Type} (l₁ l₂ : List α) (k : Nat) (h : k ≤ l₁.length) :
    (l₁ ++ l₂).drop k = l₁.drop k ++ l₂ := by
  induction l₁ generalizing k with
  | nil =>
    simp at h
    simp [h]
  | cons a l ih =>
    cases k with
    | zero => simp
    | succ n => simpa [List.drop] using ih n (by simpa using h)

theorem controlL_char (can : Task → Bool) (step : Task → Task) (e : ControlError)
    (cs : List Ptree) (hcs : ∀ c ∈ cs, charT can step e c) :
    charL can step e cs := by
  induction cs with
  | nil =>
    unfold charL
    refine ⟨?_, ?_, ?_⟩ <;> simp [controlL, preTasksL_nil, firstIdx]
  | cons c cs ih =>
    have hcT := hcs c (by simp)
    have hrest := ih (fun x hx => hcs x (by simp [hx]))
    unfold charT at hcT
    unfold charL at hrest ⊢
    obtain ⟨hc1, hc2, hc3⟩ := hcT
    obtain ⟨hr1, hr2, hr3⟩ := hrest
    rcases hcout : controlT can step e c with ⟨c', evs, res⟩
    rw [hcout] at hc1 hc2 hc3
    simp only at hc1 hc2 hc3
    cases res with
    | error er =>
      have hlt : firstIdx (fun tk => !can tk) (preTasks c) < (preTasks c).length := by
        by_contra hge
        rw [if_neg hge] at hc2
        exact Except.noConfusion hc2
      have her : er = e := by
        rw [if_pos hlt] at hc2
        exact (Except.error.injEq _ _).mp hc2
      subst her
      refine ⟨?_, ?_, ?_⟩
      · simp only [controlL, hcout, preTasksL_cons]
        rw [firstIdx_append_lt _ _ _ hlt,
          take_append_le _ _ _ (Nat.le_of_lt hlt),
          drop_append_le _ _ _ (Nat.le_of_lt hlt), hc1]
        simp [List.append_assoc]
      · simp only [controlL, hcout, preTasksL_cons]
        rw [firstIdx_append_lt _ _ _ hlt, if_pos]
        rw [List.length_append]
        omega
      · simp only [controlL, hcout]
        exact hc3
    | ok u =>
      have hknone : ¬ firstIdx (fun tk => !can tk) (preTasks c) < (preTasks c).length := by
        intro hlt
        rw [if_pos hlt] at hc2
        exact Except.noConfusion hc2
      have hkeq : firstIdx (fun tk => !can tk) (preTasks c) = (preTasks c).length := by
        have := firstIdx_le_length (fun tk => !can tk) (preTasks c)
        omega
      have hall : ∀ a ∈ preTasks c, (fun tk => !can tk) a = false :=
        (firstIdx_eq_length_iff _ _).mp hkeq
      refine ⟨?_, ?_, ?_⟩
      · simp only [controlL, hcout, preTasksL_cons]
        rw [firstIdx_append_none _ _ _ hall, take_append_add, drop_append_add, hr1,
          hc1, hkeq]
        simp [List.take_length, List.drop_length, List.append_assoc]
      · simp only [controlL, hcout, preTasksL_cons]
        rw [firstIdx_append_none _ _ _ hall, hr2, List.length_append]
        by_cases hkB : firstIdx (fun tk => !can tk) (preTasksL cs) < (preTasksL cs).length
        · rw [if_pos hkB, if_pos (by omega)]
        · rw [if_neg hkB, if_neg (by omega)]
      · simp only [controlL, hcout]
        rw [hc3, hr3]
        simp

theorem controlT_char (can : Task → Bool) (step : Task → Task) (e : ControlError) :
    ∀ t, charT can step e t := by
  refine Ptree.strongInd ?_
  intro d cs ihc
  have hL := controlL_char can step e cs ihc
  unfold charL at hL
  obtain ⟨hL1, hL2, hL3⟩ := hL
  unfold charT
  by_cases hcan : can d.task
  · have hfail : (!can d.task) = false := by simp [hcan]
    have hk : firstIdx (fun tk => !can tk) (d.task :: preTasksL cs) =
        firstIdx (fun tk => !can tk) (preTasksL cs) + 1 := by
      simp [firstIdx, hfail]
    refine ⟨?_, ?_, ?_⟩
    · simp only [controlT, if_pos hcan, preTasks_node, hk]
      rw [List.take_succ_cons, List.drop_succ_cons, List.map_cons, hL1]
      simp
    · simp only [controlT, if_pos hcan, preTasks_node, hk]
      rw [hL2, List.length_cons]
      by_cases hkB : firstIdx (fun tk => !can tk) (preTasksL cs) < (preTasksL cs).length
      · rw [if_pos hkB, if_pos (by omega)]
      · rw [if_neg hkB, if_neg (by omega)]
    · simp only [controlT, if_pos hcan]
      exact hL3
  · have hfail : (!can d.task) = true := by simp [hcan]
    have hk : firstIdx (fun tk => !can tk) (d.task :: preTasksL cs) = 0 := by
      simp [firstIdx, hfail]
    refine ⟨?_, ?_, ?_⟩
    · simp [controlT, if_neg hcan, preTasks_node, hk]
    · simp only [controlT, if_neg hcan, preTasks_node, hk]
      rw [if_pos]
      rw [List.length_cons]
      omega
    · simp [controlT, if_neg hcan]

theorem firstIdx_lt_length_iff {α : Type} (p : α → Bool) (l : List α) :
    firstIdx p l < l.length ↔ ∃ a ∈ l, p a = true := by
  constructor
  · intro h
    by_contra hno
    push_neg at hno
    have hall : ∀ a ∈ l, p a = false := by
      intro a ha
      have := hno a ha
      simpa [Bool.not_eq_true] using this
    rw [(firstIdx_eq_length_iff p l).mpr hall] at h
    omega
  · intro ⟨a, ha, hpa⟩
    have hle := firstIdx_le_length p l
    rcases Nat.lt_or_ge (firstIdx p l) l.length with h | h
    · exact h
    · have heq : firstIdx p l = l.length := by omega
      have := (firstIdx_eq_length_iff p l).mp heq a ha
      rw [hpa] at this
      exact Bool.noConfusion this

/-- C5: `pause`/`resume` produce `Err(NotPausable)` exactly when some node of
the traversed subtree — the node itself or the first offending descendant in
depth-first order — has `is_pausable = false`, and `cancel` produces
`Err(NotCancelable)` exactly when one has `is_cancelable = false`; the
traversal surfaces exactly that error, and the preorder tasks after the call
are the input tasks with the state step applied to the strict prefix before
the first offender and nothing after it rolled forward or back (everything
mutated when no node offends). -/
theorem C5_control_error_exactness : ∀ t : Ptree,
    ((pauseT t).2.2 = Except.error ControlError.notPausable ↔
      ∃ tk ∈ preTasks t, tk.is_pausable = false) ∧
    preTasks (pauseT t).1 =
      ((preTasks t).take (firstIdx (fun tk => !tk.is_pausable) (preTasks t))).map pauseStep ++
        (preTasks t).drop (firstIdx (fun tk => !tk.is_pausable) (preTasks t)) ∧
    ((resumeT t).2.2 = Except.error ControlError.notPausable ↔
      ∃ tk ∈ preTasks t, tk.is_pausable = false) ∧
    preTasks (resumeT t).1 =
      ((preTasks t).take (firstIdx (fun tk => !tk.is_pausable) (preTasks t))).map resumeStep ++
        (preTasks t).drop (firstIdx (fun tk => !tk.is_pausable) (preTasks t)) ∧
    ((cancelT t).2.2 = Except.error ControlError.notCancelable ↔
      ∃ tk ∈ preTasks t, tk.is_cancelable = false) ∧
    preTasks (cancelT t).1 =
      ((preTasks t).take (firstIdx (fun tk => !tk.is_cancelable) (preTasks t))).map cancelStep ++
        (preTasks t).drop (firstIdx (fun tk => !tk.is_cancelable) (preTasks t)) := by
  intro t
  have hp := controlT_char (fun tk => tk.is_pausable) pauseStep .notPausable t
  have hr := controlT_char (fun tk => tk.is_pausable) resumeStep .notPausable t
  have hcn := controlT_char (fun tk => tk.is_cancelable) cancelStep .notCancelable t
  unfold charT at hp hr hcn
  obtain ⟨hp1, hp2, -⟩ := hp
  obtain ⟨hr1, hr2, -⟩ := hr
  obtain ⟨hc1, hc2, -⟩ := hcn
  have hiff : ∀ (l : List Task),
      (firstIdx (fun tk => !tk.is_pausable) l < l.length ↔
        ∃ tk ∈ l, tk.is_pausable = false) := by
    intro l
    rw [firstIdx_lt_length_iff]
    simp
  have hiffc : ∀ (l : List Task),
      (firstIdx (fun tk => !tk.is_cancelable) l < l.length ↔
        ∃ tk ∈ l, tk.is_cancelable = false) := by
    intro l
    rw [firstIdx_lt_length_iff]
    simp
  refine ⟨?_, hp1, ?_, hr1, ?_, hc1⟩
  · rw [pauseT, hp2]
    by_cases h : firstIdx (fun tk => !tk.is_pausable) (preTasks t) < (preTasks t).length
    · simp only [if_pos h]
      simpa using (hiff (preTasks t)).mp h
    · simp only [if_neg h]
      constructor
      · intro hok
        exact Except.noConfusion hok
      · intro hex
        exact absurd ((hiff (preTasks t)).mpr hex) h
  · rw [resumeT, hr2]
    by_cases h : firstIdx (fun tk => !tk.is_pausable) (preTasks t) < (preTasks t).length
    · simp only [if_pos h]
      simpa using (hiff (preTasks t)).mp h
    · simp only [if_neg h]
      constructor
      · intro hok
        exact Except.noConfusion hok
      · intro hex
        exact absurd ((hiff (preTasks t)).mpr hex) h
  · rw [cancelT, hc2]
    by_cases h : firstIdx (fun tk => !tk.is_cancelable) (preTasks t) < (preTasks t).length
    · simp only [if_pos h]
      simpa using (hiffc (preTasks t)).mp h
    · simp only [if_neg h]
      constructor
      · intro hok
        exact Except.noConfusion hok
      · intro hex
        exact absurd ((hiffc (preTasks t)).mpr hex) h

/-- C1 (amended): on a tree whose nodes are all cancelable and Running or
Paused, `cancel()` on the root sets every node's state to `Canceled` and
returns `Ok`, but — unlike the claim's event clause — control operations emit
no events at all: the `cancel` in `src/progress.rs` contains no
`observer.observe` call, so no `Update` event is emitted for any mutated
node. -/
theorem C1_cancel_recurses (t : Ptree)
    (hcap : ∀ tk ∈ preTasks t, tk.is_cancelable = true)
    (hst : ∀ tk ∈ preTasks t, tk.state = State.running ∨ tk.state = State.paused) :
    (∀ tk ∈ preTasks (cancelT t).1, tk.state = State.canceled) ∧
    (cancelT t).2.2 = Except.ok () ∧
    (cancelT t).2.1 = [] := by
  have hch := controlT_char (fun tk => tk.is_cancelable) cancelStep .notCancelable t
  unfold charT at hch
  obtain ⟨h1, h2, h3⟩ := hch
  have hall : ∀ a ∈ preTasks t, (fun tk => !tk.is_cancelable) a = false := by
    intro a ha
    simp [hcap a ha]
  have hkeq : firstIdx (fun tk => !tk.is_cancelable) (preTasks t) = (preTasks t).length :=
    (firstIdx_eq_length_iff _ _).mpr hall
  refine ⟨?_, ?_, h3⟩
  · intro tk htk
    rw [cancelT] at htk
    rw [h1, hkeq, List.take_length, List.drop_length, List.append_nil] at htk
    obtain ⟨tk0, htk0, hmap⟩ := List.mem_map.mp htk
    subst hmap
    rcases hst tk0 htk0 with hs | hs <;> simp [cancelStep, hs]
  · rw [cancelT, h2, hkeq, if_neg (by omega)]

/-- C1 witness: the hypotheses and conclusion of `C1_cancel_recurses` hold at
the concrete three-node chain. -/
theorem C1_cancel_recurses_witness :
    (∀ tk ∈ preTasks chain3, tk.is_cancelable = true) ∧
    (∀ tk ∈ preTasks chain3, tk.state = State.running ∨ tk.state = State.paused) ∧
    ((∀ tk ∈ preTasks (cancelT chain3).1, tk.state = State.canceled) ∧
      (cancelT chain3).2.2 = Except.ok () ∧
      (cancelT chain3).2.1 = []) :=
  ⟨by decide, by decide, C1_cancel_recurses chain3 (by decide) (by decide)⟩

/-- C1 counterexample: on the three-node chain (all nodes cancelable, states
Running/Paused/Running) `cancel()` mutates all three nodes to `Canceled`, yet
the number of `Update` events emitted is `0`, not one per mutated node (= 3)
as the claim states. -/
theorem C1_counterexample :
    (∀ tk ∈ preTasks (cancelT chain3).1, tk.state = State.canceled) ∧
    ((cancelT chain3).2.1.filter Event.isUpdate).length = 0 ∧
    ¬ ((cancelT chain3).2.1.filter Event.isUpdate).length = (preTasks chain3).length := by
  refine ⟨by decide, by decide, by decide⟩

/-! ### Frame lemmas for the path operations -/

theorem getIdx?_mem {α : Type} {l : List α} {i : Nat} {a : α}
    (h : getIdx? l i = some a) : a ∈ l := by
  induction l generalizing i with
  | nil => simp [getIdx?] at h
  | cons b bs ih =>
    cases i with
    | zero =>
      simp only [getIdx?, Option.some.injEq] at h
      simp [h]
    | succ n =>
      simp only [getIdx?] at h
      exact List.mem_cons_of_mem b (ih h)

theorem getData?_nil (d : NodeData) (cs : List Ptree) :
    getData? (.node d cs) [] = some d := rfl

theorem getData?_cons_none {cs : List Ptree} {j : Nat} (d : NodeData) (q : Path)
    (h : getIdx? cs j = none) : getData? (.node d cs) (j :: q) = none := by
  simp [getData?, getTree?, h]

theorem getData?_cons_some {cs : List Ptree} {j : Nat} {c : Ptree} (d : NodeData) (q : Path)
    (h : getIdx? cs j = some c) : getData? (.node d cs) (j :: q) = getData? c q := by
  simp [getData?, getTree?, h]

theorem getData?_mapAt (f : NodeData → NodeData) :
    ∀ t p q, getData? (mapAt t p f) q =
      if q = p then (getData? t p).map f else getData? t q := by
  refine Ptree.strongInd ?_
  intro d cs ih p q
  match p, q with
  | [], [] => simp [mapAt, getData?_nil]
  | [], j :: q' =>
    rw [if_neg (by simp)]
    show getData? (.node (f d) cs) (j :: q') = _
    cases hc : getIdx? cs j with
    | none => rw [getData?_cons_none _ _ hc, getData?_cons_none _ _ hc]
    | some c => rw [getData?_cons_some _ _ hc, getData?_cons_some _ _ hc]
  | i :: p', [] =>
    rw [if_neg (by simp)]
    simp [mapAt, getData?_nil]
  | i :: p', j :: q' =>
    show getData? (.node d (listModify cs i (fun c => mapAt c p' f))) (j :: q') = _
    by_cases hij : j = i
    · subst hij
      cases hc : getIdx? cs j with
      | none =>
        have hm : getIdx? (listModify cs j (fun c => mapAt c p' f)) j = none := by
          rw [getIdx?_listModify_self, hc]
          rfl
        rw [getData?_cons_none _ _ hm, getData?_cons_none d p' hc,
          getData?_cons_none d q' hc]
        split <;> rfl
      | some c =>
        have hm : getIdx? (listModify cs j (fun c => mapAt c p' f)) j =
            some (mapAt c p' f) := by
          rw [getIdx?_listModify_self, hc]
          rfl
        rw [getData?_cons_some _ _ hm, getData?_cons_some d p' hc,
          getData?_cons_some d q' hc, ih c (getIdx?_mem hc) p' q']
        by_cases hq : q' = p'
        · rw [if_pos hq, if_pos (by simp [hq])]
        · rw [if_neg hq, if_neg (by simp [hq])]
    · rw [if_neg (by simp [hij])]
      cases hc : getIdx? cs j with
      | none =>
        have hm : getIdx? (listModify cs i (fun c => mapAt c p' f)) j = none := by
          rw [getIdx?_listModify_ne _ _ _ _ hij, hc]
        rw [getData?_cons_none _ _ hm, getData?_cons_none _ _ hc]
      | some c =>
        have hm : getIdx? (listModify cs i (fun c => mapAt c p' f)) j = some c := by
          rw [getIdx?_listModify_ne _ _ _ _ hij, hc]
        rw [getData?_cons_some _ _ hm, getData?_cons_some _ _ hc]

theorem getData?_stampAlong (g : Nat) :
    ∀ t p j q, getData? (stampAlong t p j g) q =
      if q <+: p ∧ j ≤ q.length
      then (getData? t q).map (fun d => { d with lastChange := g })
      else getData? t q := by
  refine Ptree.strongInd ?_
  intro d cs ih p j q
  match p, q with
  | [], [] =>
    show getData? (.node (if j = 0 then { d with lastChange := g } else d) cs) [] = _
    by_cases hj : j = 0
    · rw [if_pos hj, if_pos ⟨List.nil_prefix, by simp [hj]⟩]
      simp [getData?_nil]
    · rw [if_neg hj, if_neg (by
        intro ⟨h1, h2⟩
        simp only [List.length_nil, Nat.le_zero] at h2
        exact hj h2)]
  | [], j' :: q' =>
    rw [if_neg (by
      intro ⟨h1, h2⟩
      exact absurd (List.prefix_nil.mp h1) (by simp))]
    show getData? (.node (if j = 0 then { d with lastChange := g } else d) cs) (j' :: q') = _
    cases hc : getIdx? cs j' with
    | none => rw [getData?_cons_none _ _ hc, getData?_cons_none _ _ hc]
    | some c => rw [getData?_cons_some _ _ hc, getData?_cons_some _ _ hc]
  | i :: p', [] =>
    show getData? (.node (if j = 0 then { d with lastChange := g } else d)
      (listModify cs i (fun c => stampAlong c p' (j - 1) g))) [] = _
    by_cases hj : j = 0
    · rw [if_pos hj, if_pos ⟨List.nil_prefix, by simp [hj]⟩]
      simp [getData?_nil]
    · rw [if_neg hj, if_neg (by
        intro ⟨h1, h2⟩
        simp only [List.length_nil, Nat.le_zero] at h2
        exact hj h2)]
      rw [getData?_nil, getData?_nil]
  | i :: p', a :: q' =>
    show getData? (.node (if j = 0 then { d with lastChange := g } else d)
      (listModify cs i (fun c => stampAlong c p' (j - 1) g))) (a :: q') = _
    by_cases hai : a = i
    · subst hai
      cases hc : getIdx? cs a with
      | none =>
        have hm : getIdx? (listModify cs a (fun c => stampAlong c p' (j - 1) g)) a =
            none := by
          rw [getIdx?_listModify_self, hc]
          rfl
        rw [getData?_cons_none _ _ hm, getData?_cons_none _ _ hc]
        split <;> rfl
      | some c =>
        have hm : getIdx? (listModify cs a (fun c => stampAlong c p' (j - 1) g)) a =
            some (stampAlong c p' (j - 1) g) := by
          rw [getIdx?_listModify_self, hc]
          rfl
        rw [getData?_cons_some _ _ hm, getData?_cons_some _ _ hc,
          ih c (getIdx?_mem hc) p' (j - 1) q']
        by_cases hpre : (a :: q') <+: (a :: p') ∧ j ≤ (a :: q').length
        · have hpre' : q' <+: p' ∧ j - 1 ≤ q'.length := by
            obtain ⟨h1, h2⟩ := hpre
            refine ⟨(List.cons_prefix_cons.mp h1).2, ?_⟩
            simp only [List.length_cons] at h2
            omega
          rw [if_pos hpre', if_pos hpre]
        · have hpre' : ¬ (q' <+: p' ∧ j - 1 ≤ q'.length) := by
            intro ⟨h1, h2⟩
            refine hpre ⟨List.cons_prefix_cons.mpr ⟨rfl, h1⟩, ?_⟩
            simp only [List.length_cons]
            omega
          rw [if_neg hpre', if_neg hpre]
    · have hnot : ¬ ((a :: q') <+: (i :: p') ∧ j ≤ (a :: q').length) :=
        fun h => hai (List.cons_prefix_cons.mp h.1).1
      rw [if_neg hnot]
      cases hc : getIdx? cs a with
      | none =>
        have hm : getIdx? (listModify cs i (fun c => stampAlong c p' (j - 1) g)) a =
            none := by
          rw [getIdx?_listModify_ne _ _ _ _ hai, hc]
        rw [getData?_cons_none _ _ hm, getData?_cons_none _ _ hc]
      | some c =>
        have hm : getIdx? (listModify cs i (fun c => stampAlong c p' (j - 1) g)) a =
            some c := by
          rw [getIdx?_listModify_ne _ _ _ _ hai, hc]
        rw [getData?_cons_some _ _ hm, getData?_cons_some _ _ hc]

/-! ### The bump on a well-formed tree -/

theorem validPath_eq_isSome (t : Ptree) (q : Path) :
    validPath t q = (getData? t q).isSome := by
  cases h : getTree? t q <;> simp [validPath, getData?, h]

theorem validPath_cons {d : NodeData} {cs : List Ptree} {i : Nat} {p : Path}
    (h : validPath (.node d cs) (i :: p) = true) :
    ∃ c, getIdx? cs i = some c ∧ validPath c p = true := by
  unfold validPath getTree? at h
  cases hc : getIdx? cs i with
  | none => rw [hc] at h; simp at h
  | some c =>
    rw [hc] at h
    exact ⟨c, rfl, h⟩

theorem allLinkedListB_mem {cs : List Ptree} {c : Ptree}
    (h : allLinkedListB cs = true) (hm : c ∈ cs) : allLinkedB c = true := by
  induction cs with
  | nil => simp at hm
  | cons x xs ih =>
    rw [allLinkedListB] at h
    rcases List.mem_cons.mp hm with he | hm'
    · subst he
      exact (Bool.and_eq_true_iff.mp h).1
    · exact ih (Bool.and_eq_true_iff.mp h).2 hm'

theorem lastUnlinked_replicate_true (n : Nat) :
    lastUnlinked (List.replicate n true) = none := by
  induction n with
  | zero => rfl
  | succ m ih => simp [List.replicate, lastUnlinked, ih]

theorem pathData?_cons_some {cs : List Ptree} {i : Nat} {c : Ptree} (d : NodeData)
    (p : Path) (h : getIdx? cs i = some c) :
    pathData? (.node d cs) (i :: p) = (pathData? c p).map (d :: ·) := by
  simp [pathData?, h]

theorem pathData?_cons_none {cs : List Ptree} {i : Nat} (d : NodeData)
    (p : Path) (h : getIdx? cs i = none) :
    pathData? (.node d cs) (i :: p) = none := by
  simp [pathData?, h]

theorem pathData?_allLinked (p : Path) :
    ∀ c, allLinkedB c = true → validPath c p = true →
      (pathData? c p).map (List.map (·.linked)) =
        some (List.replicate (p.length + 1) true) := by
  induction p with
  | nil =>
    intro c hall hv
    obtain ⟨d, cs⟩ := c
    rw [allLinkedB] at hall
    have hd : d.linked = true := (Bool.and_eq_true_iff.mp hall).1
    simp [pathData?, hd, List.replicate]
  | cons i p ih =>
    intro c hall hv
    obtain ⟨d, cs⟩ := c
    rw [allLinkedB] at hall
    obtain ⟨hd, hcs⟩ := Bool.and_eq_true_iff.mp hall
    obtain ⟨c', hc', hv'⟩ := validPath_cons hv
    have hrec := ih c' (allLinkedListB_mem hcs (getIdx?_mem hc')) hv'
    cases hds : pathData? c' p with
    | none => rw [hds] at hrec; exact Option.noConfusion hrec
    | some ds =>
      rw [hds] at hrec
      simp only [Option.map_some', Option.some.injEq] at hrec
      rw [pathData?_cons_some d p hc', hds]
      simp only [Option.map_some', Option.some.injEq, List.map_cons, List.length_cons]
      rw [hrec, hd]
      simp [List.replicate_succ]

theorem pathData?_wellLinked (t : Ptree) (p : Path) (hwl : wellLinkedB t = true)
    (hvp : validPath t p = true) :
    (pathData? t p).map (List.map (·.linked)) =
      some (false :: List.replicate p.length true) := by
  obtain ⟨d, cs⟩ := t
  rw [wellLinkedB] at hwl
  obtain ⟨hd, hcs⟩ := Bool.and_eq_true_iff.mp hwl
  have hdl : d.linked = false := by
    cases h : d.linked
    · rfl
    · rw [h] at hd; simp at hd
  cases p with
  | nil => simp [pathData?, hdl]
  | cons i p' =>
    obtain ⟨c', hc', hv'⟩ := validPath_cons hvp
    have hrec := pathData?_allLinked p' c' (allLinkedListB_mem hcs (getIdx?_mem hc')) hv'
    cases hds : pathData? c' p' with
    | none => rw [hds] at hrec; exact Option.noConfusion hrec
    | some ds =>
      rw [hds] at hrec
      simp only [Option.map_some', Option.some.injEq] at hrec
      rw [pathData?_cons_some d p' hc', hds]
      simp only [Option.map_some', Option.some.injEq, List.map_cons, List.length_cons]
      rw [hrec, hdl]

theorem pathData?_head (t : Ptree) (p : Path) (ds : List NodeData)
    (h : pathData? t p = some ds) : getIdx? ds 0 = some t.data := by
  obtain ⟨d, cs⟩ := t
  cases p with
  | nil =>
    simp only [pathData?, Option.some.injEq] at h
    subst h
    rfl
  | cons i p' =>
    cases hc : getIdx? cs i with
    | none =>
      rw [pathData?_cons_none d p' hc] at h
      exact Option.noConfusion h
    | some c =>
      rw [pathData?_cons_some d p' hc] at h
      cases hds : pathData? c p' with
      | none => rw [hds] at h; exact Option.noConfusion h
      | some ds' =>
        rw [hds] at h
        simp only [Option.map_some', Option.some.injEq] at h
        subst h
        rfl

theorem effRootIdx_false_replicate (n : Nat) :
    effRootIdx (false :: List.replicate n true) = 0 := by
  simp [effRootIdx, lastUnlinked, lastUnlinked_replicate_true]

theorem bumpAt_wellLinked (t : Ptree) (p : Path) (hwl : wellLinkedB t = true)
    (hvp : validPath t p = true) :
    bumpAt t p = (stampAlong t p 0 ((t.data.lastChange + 1) % usizeSize),
      (t.data.lastChange + 1) % usizeSize,
      if t.data.lastChange + 1 = usizeSize then [Event.generationOverflow] else []) := by
  have hD := pathData?_wellLinked t p hwl hvp
  cases hds : pathData? t p with
  | none => rw [hds] at hD; exact Option.noConfusion hD
  | some ds =>
    rw [hds] at hD
    simp only [Option.map_some', Option.some.injEq] at hD
    have hj : effRootIdx (ds.map (·.linked)) = 0 := by
      rw [hD]
      exact effRootIdx_false_replicate _
    have hhead : getIdx? ds 0 = some t.data := pathData?_head t p ds hds
    simp only [bumpAt, hds, hj, hhead]

theorem allLinkedListB_listModify (cs : List Ptree) (i : Nat) (g : Ptree → Ptree)
    (hg : ∀ c ∈ cs, allLinkedB (g c) = allLinkedB c) :
    allLinkedListB (listModify cs i g) = allLinkedListB cs := by
  induction cs generalizing i with
  | nil => simp [listModify]
  | cons c cs ih =>
    cases i with
    | zero =>
      rw [listModify, allLinkedListB, allLinkedListB, hg c (by simp)]
    | succ n =>
      rw [listModify, allLinkedListB, allLinkedListB,
        ih n (fun x hx => hg x (by simp [hx]))]

theorem allLinkedB_mapAt (f : NodeData → NodeData)
    (hf : ∀ d, (f d).linked = d.linked) :
    ∀ t p, allLinkedB (mapAt t p f) = allLinkedB t := by
  refine Ptree.strongInd ?_
  intro d cs ih p
  cases p with
  | nil =>
    show allLinkedB (.node (f d) cs) = _
    rw [allLinkedB, allLinkedB, hf]
  | cons i p' =>
    show allLinkedB (.node d (listModify cs i (fun c => mapAt c p' f))) = _
    rw [allLinkedB, allLinkedB,
      allLinkedListB_listModify cs i _ (fun c hc => ih c hc p')]

theorem wellLinkedB_mapAt (f : NodeData → NodeData)
    (hf : ∀ d, (f d).linked = d.linked) (t : Ptree) (p : Path) :
    wellLinkedB (mapAt t p f) = wellLinkedB t := by
  obtain ⟨d, cs⟩ := t
  cases p with
  | nil =>
    show wellLinkedB (.node (f d) cs) = _
    rw [wellLinkedB, wellLinkedB, hf]
  | cons i p' =>
    show wellLinkedB (.node d (listModify cs i (fun c => mapAt c p' f))) = _
    rw [wellLinkedB, wellLinkedB,
      allLinkedListB_listModify cs i _ (fun c hc => allLinkedB_mapAt f hf c p')]

theorem mapAt_data_lastChange (f : NodeData → NodeData)
    (hf : ∀ d, (f d).lastChange = d.lastChange) (t : Ptree) (p : Path) :
    (mapAt t p f).data.lastChange = t.data.lastChange := by
  obtain ⟨d, cs⟩ := t
  cases p with
  | nil => exact hf d
  | cons i p' => rfl

theorem getTree?_append (t : Ptree) (q r : Path) :
    getTree? t (q ++ r) = (getTree? t q).bind (fun s => getTree? s r) := by
  induction q generalizing t with
  | nil => simp [getTree?]
  | cons i q' ih =>
    obtain ⟨d, cs⟩ := t
    show getTree? (.node d cs) (i :: (q' ++ r)) = _
    cases hc : getIdx? cs i with
    | none => simp [getTree?, hc]
    | some c => simp [getTree?, hc, ih c]

theorem validPath_of_prefix {t : Ptree} {p q : Path} (hvp : validPath t p = true)
    (hpre : q <+: p) : validPath t q = true := by
  obtain ⟨r, hr⟩ := hpre
  subst hr
  unfold validPath at hvp ⊢
  rw [getTree?_append] at hvp
  cases h : getTree? t q with
  | none => rw [h] at hvp; simp at hvp
  | some s => simp

/-- C2 (amended): `update(n, f)` on a well-formed tree restamps exactly `n`
and its ancestors with the freshly bumped generation — the clock in
`src/progress.rs` is root-anchored: `bump_last_change` walks the parent chain
and swaps the new generation into every node it visits — while the
`last_change` of every node that is neither `n` nor an ancestor of `n` is
unchanged. -/
theorem C2_update_restamps_ancestors (t : Ptree) (p : Path) (f : Task → Task)
    (hwl : wellLinkedB t = true) (hvp : validPath t p = true) :
    (∀ q, q <+: p →
      lcAt (updateAt t p f).1 q = some ((t.data.lastChange + 1) % usizeSize)) ∧
    (∀ q, ¬ q <+: p → lcAt (updateAt t p f).1 q = lcAt t q) := by
  set tf : NodeData → NodeData := fun d => { d with task := f d.task } with htf
  have hf1 : ∀ d, (tf d).linked = d.linked := fun d => rfl
  have hf2 : ∀ d, (tf d).lastChange = d.lastChange := fun d => rfl
  set t1 := mapAt t p tf with ht1
  have hwl1 : wellLinkedB t1 = true := by
    rw [ht1, wellLinkedB_mapAt tf hf1]
    exact hwl
  have hvp1 : validPath t1 p = true := by
    rw [validPath_eq_isSome, ht1, getData?_mapAt tf t p p, if_pos rfl]
    rw [validPath_eq_isSome] at hvp
    cases h : getData? t p with
    | none => rw [h] at hvp; simp at hvp
    | some d => simp
  have hlc1 : t1.data.lastChange = t.data.lastChange :=
    mapAt_data_lastChange tf hf2 t p
  have hbump := bumpAt_wellLinked t1 p hwl1 hvp1
  have htree : (updateAt t p f).1 =
      stampAlong t1 p 0 ((t.data.lastChange + 1) % usizeSize) := by
    simp only [updateAt]
    rw [← htf, ← ht1, hbump, hlc1]
    cases hgd : getData? (stampAlong t1 p 0 ((t.data.lastChange + 1) % usizeSize)) p <;>
      simp [hgd]
  rw [htree]
  constructor
  · intro q hpre
    have hvq : validPath t q = true := validPath_of_prefix hvp hpre
    rw [validPath_eq_isSome] at hvq
    unfold lcAt
    rw [getData?_stampAlong _ t1 p 0 q, if_pos ⟨hpre, Nat.zero_le _⟩, ht1,
      getData?_mapAt tf t p q]
    by_cases hqp : q = p
    · subst hqp
      rw [if_pos rfl]
      cases h : getData? t q with
      | none => rw [validPath_eq_isSome, h] at hvp; simp at hvp
      | some d => rfl
    · rw [if_neg hqp]
      cases h : getData? t q with
      | none => rw [h] at hvq; simp at hvq
      | some d => rfl
  · intro q hpre
    have hqp : q ≠ p := fun h => hpre (h ▸ List.prefix_refl q)
    unfold lcAt
    rw [getData?_stampAlong _ t1 p 0 q, if_neg (fun h => hpre h.1), ht1,
      getData?_mapAt tf t p q, if_neg hqp]

/-- C2 witness: the hypotheses and conclusion of
`C2_update_restamps_ancestors` hold for an update of the middle node of the
concrete three-node chain. -/
theorem C2_update_restamps_ancestors_witness :
    wellLinkedB chain3 = true ∧ validPath chain3 [0] = true ∧
    ((∀ q, q <+: [0] →
        lcAt (updateAt chain3 [0] (fun tk => tk)).1 q =
          some ((chain3.data.lastChange + 1) % usizeSize)) ∧
      (∀ q, ¬ q <+: [0] →
        lcAt (updateAt chain3 [0] (fun tk => tk)).1 q = lcAt chain3 q)) :=
  ⟨by decide, by decide,
    C2_update_restamps_ancestors chain3 [0] (fun tk => tk) (by decide) (by decide)⟩

/-- C2 counterexample: updating the middle node of the three-node chain
restamps the root — an ancestor of the mutated node — from generation `0` to
generation `1`, so the `last_change` of a node other than the mutated one
does change. -/
theorem C2_counterexample :
    lcAt chain3 [] = some 0 ∧
    lcAt (updateAt chain3 [0] (fun tk => tk)).1 [] = some 1 ∧
    ¬ lcAt (updateAt chain3 [0] (fun tk => tk)).1 [] = lcAt chain3 [] := by
  refine ⟨by decide, by decide, by decide⟩

/-! ### C9: one `Update` event per `update` -/

theorem pathData?_length : ∀ (t : Ptree) (p : Path) (ds : List NodeData),
    pathData? t p = some ds → ds.length = p.length + 1 := by
  intro t p
  induction p generalizing t with
  | nil =>
    intro ds h
    obtain ⟨d, cs⟩ := t
    simp only [pathData?, Option.some.injEq] at h
    subst h
    rfl
  | cons i p' ih =>
    intro ds h
    obtain ⟨d, cs⟩ := t
    cases hc : getIdx? cs i with
    | none =>
      rw [pathData?_cons_none d p' hc] at h
      exact Option.noConfusion h
    | some c =>
      rw [pathData?_cons_some d p' hc] at h
      cases hds : pathData? c p' with
      | none => rw [hds] at h; exact Option.noConfusion h
      | some ds' =>
        rw [hds] at h
        simp only [Option.map_some', Option.some.injEq] at h
        subst h
        simp [ih c ds' hds]

theorem lastUnlinked_lt {l : List Bool} {k : Nat} (h : lastUnlinked l = some k) :
    k < l.length := by
  induction l generalizing k with
  | nil => simp [lastUnlinked] at h
  | cons b bs ih =>
    rw [lastUnlinked] at h
    cases hbs : lastUnlinked bs with
    | some m =>
      rw [hbs] at h
      simp only [Option.some.injEq] at h
      subst h
      have := ih hbs
      simp only [List.length_cons]
      omega
    | none =>
      rw [hbs] at h
      by_cases hb : b
      · rw [if_pos hb] at h
        exact Option.noConfusion h
      · rw [if_neg hb] at h
        simp only [Option.some.injEq] at h
        subst h
        simp

theorem effRootIdx_lt_length {flags : List Bool} (h : flags ≠ []) :
    effRootIdx flags < flags.length := by
  unfold effRootIdx
  cases hl : lastUnlinked flags with
  | some k => simpa using lastUnlinked_lt hl
  | none =>
    simp only [Option.getD_none]
    cases flags with
    | nil => exact absurd rfl h
    | cons b bs => simp

/-- C9: `update(node, f)` emits exactly one `Update` event, carrying the
node's id, as the final event of the call (after the mutator has been applied
and after `bump_last_change`, which may itself have emitted a
`GenerationOverflow` but never an `Update`); the node's task in the resulting
tree is `f` of its prior task. -/
theorem C9_update_single_event (t : Ptree) (p : Path) (f : Task → Task) (d : NodeData)
    (hd : getData? t p = some d) :
    (updateAt t p f).2.filter Event.isUpdate = [Event.update d.id] ∧
    (updateAt t p f).2.getLast? = some (Event.update d.id) ∧
    (getData? (updateAt t p f).1 p).map (·.task) = some (f d.task) := by
  set tf : NodeData → NodeData := fun x => { x with task := f x.task } with htf
  have hd1 : getData? (mapAt t p tf) p = some (tf d) := by
    rw [getData?_mapAt tf t p p, if_pos rfl, hd]
    rfl
  cases hpd : pathData? (mapAt t p tf) p with
  | none =>
    have hbump : bumpAt (mapAt t p tf) p = (mapAt t p tf, 0, []) := by
      unfold bumpAt
      rw [hpd]
    refine ⟨?_, ?_, ?_⟩ <;>
      simp only [updateAt, ← htf, hbump, hd1] <;>
      simp [Event.isUpdate, htf]
  | some ds =>
    have hdsne : ds ≠ [] := by
      intro he
      have := pathData?_length _ _ _ hpd
      rw [he] at this
      simp at this
    have hjlt : effRootIdx (ds.map (·.linked)) < p.length + 1 := by
      have h1 : effRootIdx (ds.map (·.linked)) < (ds.map (·.linked)).length :=
        effRootIdx_lt_length (by simpa using hdsne)
      have h2 := pathData?_length _ _ _ hpd
      simpa [h2] using h1
    set j := effRootIdx (ds.map (·.linked)) with hj
    set base := (match getIdx? ds j with | some x => x.lastChange | none => 0) with hbase
    set g := (base + 1) % usizeSize with hg
    have hbump : bumpAt (mapAt t p tf) p =
        (stampAlong (mapAt t p tf) p j g, g,
          if base + 1 = usizeSize then [Event.generationOverflow] else []) := by
      simp only [bumpAt, hpd]
    have hstamped : getData? (stampAlong (mapAt t p tf) p j g) p =
        some { tf d with lastChange := g } := by
      rw [getData?_stampAlong g (mapAt t p tf) p j p,
        if_pos ⟨List.prefix_refl p, by omega⟩, hd1]
      rfl
    refine ⟨?_, ?_, ?_⟩
    · simp only [updateAt, ← htf, hbump, hstamped]
      by_cases hov : base + 1 = usizeSize <;> simp [hov, Event.isUpdate, htf]
    · simp only [updateAt, ← htf, hbump, hstamped]
      rw [List.getLast?_concat]
    · simp only [updateAt, ← htf, hbump, hstamped]
      simp [htf]

/-- C9 witness: the hypothesis and conclusion of `C9_update_single_event`
hold for an update of the middle node of the three-node chain. -/
theorem C9_update_single_event_witness :
    getData? chain3 [0] = some chain3mid ∧
    ((updateAt chain3 [0] (fun tk => { tk with completed := 5 })).2.filter
        Event.isUpdate = [Event.update chain3mid.id] ∧
      (updateAt chain3 [0] (fun tk => { tk with completed := 5 })).2.getLast? =
        some (Event.update chain3mid.id) ∧
      (getData? (updateAt chain3 [0] (fun tk => { tk with completed := 5 })).1 [0]).map
          (·.task) =
        some ({ chain3mid.task with completed := 5 })) :=
  ⟨by decide,
    C9_update_single_event chain3 [0] (fun tk => { tk with completed := 5 })
      chain3mid (by decide)⟩

/-! ### C4: child creation -/

theorem getTree?_cons_some {cs : List Ptree} {i : Nat} {c : Ptree} (d : NodeData)
    (p : Path) (h : getIdx? cs i = some c) :
    getTree? (.node d cs) (i :: p) = getTree? c p := by
  simp [getTree?, h]

theorem getData?_appendAt (c0 : Ptree) :
    ∀ t p q, validPath t q = true → getData? (appendAt t p c0) q = getData? t q := by
  refine Ptree.strongInd ?_
  intro d cs ih p q hvq
  match p, q with
  | [], [] => simp [appendAt, getData?_nil]
  | [], j :: q' =>
    obtain ⟨cj, hcj, hv'⟩ := validPath_cons hvq
    have hj : j < cs.length := getIdx?_isSome_lt cs j (by simp [hcj])
    show getData? (.node d (cs ++ [c0])) (j :: q') = _
    rw [getData?_cons_some d q' (by rw [getIdx?_append_lt cs [c0] j hj, hcj]),
      getData?_cons_some d q' hcj]
  | i :: p', [] => simp [appendAt, getData?_nil]
  | i :: p', j :: q' =>
    obtain ⟨cj, hcj, hv'⟩ := validPath_cons hvq
    show getData? (.node d (listModify cs i (fun s => appendAt s p' c0))) (j :: q') = _
    by_cases hij : j = i
    · subst hij
      have hm : getIdx? (listModify cs j (fun s => appendAt s p' c0)) j =
          some (appendAt cj p' c0) := by
        rw [getIdx?_listModify_self, hcj]
        rfl
      rw [getData?_cons_some d q' hm, getData?_cons_some d q' hcj,
        ih cj (getIdx?_mem hcj) p' q' hv']
    · have hm : getIdx? (listModify cs i (fun s => appendAt s p' c0)) j = some cj := by
        rw [getIdx?_listModify_ne _ _ _ _ hij, hcj]
      rw [getData?_cons_some d q' hm, getData?_cons_some d q' hcj]

theorem getData?_nil_any (t : Ptree) : getData? t [] = some t.data := by
  obtain ⟨d, cs⟩ := t
  rfl

theorem getData?_appendAt_new (c0 : Ptree) :
    ∀ t p s, getTree? t p = some s →
      getData? (appendAt t p c0) (p ++ [s.children.length]) = some c0.data := by
  refine Ptree.strongInd ?_
  intro d cs ih p s hs
  match p with
  | [] =>
    simp only [getTree?, Option.some.injEq] at hs
    subst hs
    show getData? (.node d (cs ++ [c0])) ([] ++ [cs.length]) = _
    rw [List.nil_append,
      getData?_cons_some d [] (by rw [getIdx?_append_length]; rfl)]
    exact getData?_nil_any c0
  | i :: p' =>
    cases hc : getIdx? cs i with
    | none =>
      rw [getTree?] at hs
      rw [hc] at hs
      exact Option.noConfusion hs
    | some c =>
      rw [getTree?_cons_some d p' hc] at hs
      have hm : getIdx? (listModify cs i (fun x => appendAt x p' c0)) i =
          some (appendAt c p' c0) := by
        rw [getIdx?_listModify_self, hc]
        rfl
      show getData? (.node d (listModify cs i (fun x => appendAt x p' c0)))
        ((i :: p') ++ [s.children.length]) = _
      rw [List.cons_append, getData?_cons_some d _ hm,
        ih c (getIdx?_mem hc) p' s hs]

theorem updateAt_lc_frame (t : Ptree) (r : Path) (f : Task → Task) (q : Path)
    (h : ¬ q <+: r) : lcAt (updateAt t r f).1 q = lcAt t q := by
  have hqr : q ≠ r := fun he => h (he ▸ List.prefix_refl q)
  set tf : NodeData → NodeData := fun x => { x with task := f x.task } with htf
  have hmap : getData? (mapAt t r tf) q = getData? t q := by
    rw [getData?_mapAt tf t r q, if_neg hqr]
  cases hpd : pathData? (mapAt t r tf) r with
  | none =>
    have hbump : bumpAt (mapAt t r tf) r = (mapAt t r tf, 0, []) := by
      unfold bumpAt
      rw [hpd]
    unfold lcAt
    simp only [updateAt, ← htf, hbump]
    cases hgd : getData? (mapAt t r tf) r <;> simp [hgd, hmap]
  | some ds =>
    have hbump : bumpAt (mapAt t r tf) r =
        (stampAlong (mapAt t r tf) r (effRootIdx (ds.map (·.linked)))
          (((match getIdx? ds (effRootIdx (ds.map (·.linked))) with
              | some x => x.lastChange | none => 0) + 1) % usizeSize),
          ((match getIdx? ds (effRootIdx (ds.map (·.linked))) with
            | some x => x.lastChange | none => 0) + 1) % usizeSize,
          if (match getIdx? ds (effRootIdx (ds.map (·.linked))) with
              | some x => x.lastChange | none => 0) + 1 = usizeSize
          then [Event.generationOverflow] else []) := by
      simp only [bumpAt, hpd]
    have hstamp : getData? (stampAlong (mapAt t r tf) r (effRootIdx (ds.map (·.linked)))
        (((match getIdx? ds (effRootIdx (ds.map (·.linked))) with
            | some x => x.lastChange | none => 0) + 1) % usizeSize)) q =
        getData? t q := by
      rw [getData?_stampAlong _ (mapAt t r tf) r _ q, if_neg (fun hx => h hx.1), hmap]
    unfold lcAt
    simp only [updateAt, ← htf, hbump]
    cases hgd : getData? (stampAlong (mapAt t r tf) r (effRootIdx (ds.map (·.linked)))
      (((match getIdx? ds (effRootIdx (ds.map (·.linked))) with
          | some x => x.lastChange | none => 0) + 1) % usizeSize)) r <;>
      simp [hgd, hstamp]

/-- C4 (amended): `create_child(task, parent)` inserts the new child into the
parent's children map, emits exactly one `Update` event for the parent, and
initialises the child's `last_change` to the minimum generation, where it
remains as long as neither the child nor a node of its subtree is mutated;
however — unlike the claim — the parent's `last_change` is NOT bumped:
`new_with_parent` in `src/progress.rs` contains no `bump_last_change` call,
and every pre-existing node's data (the parent's `last_change` included) is
untouched. -/
theorem C4_create_child (t : Ptree) (p : Path) (task : Task) (nid : Nat)
    (s : Ptree) (hs : getTree? t p = some s) :
    (new_with_parent t p task nid).2 = [Event.update s.data.id] ∧
    getData? (new_with_parent t p task nid).1 (p ++ [s.children.length]) =
      some { id := nid, task := task, override := some .trace, lastChange := 0,
             linked := true, obs := s.data.obs } ∧
    (∀ q, validPath t q = true →
      getData? (new_with_parent t p task nid).1 q = getData? t q) ∧
    (∀ r f, ¬ (p ++ [s.children.length]) <+: r →
      lcAt (updateAt (new_with_parent t p task nid).1 r f).1
        (p ++ [s.children.length]) = some 0) := by
  have hres : new_with_parent t p task nid =
      (appendAt t p (.node
        { id := nid, task := task, override := some .trace, lastChange := 0,
          linked := true, obs := s.data.obs } []),
        [Event.update s.data.id]) := by
    simp only [new_with_parent, hs]
  have hnew := getData?_appendAt_new
    (.node
      { id := nid, task := task, override := some .trace, lastChange := 0,
        linked := true, obs := s.data.obs } []) t p s hs
  refine ⟨by rw [hres], ?_, ?_, ?_⟩
  · rw [hres]
    exact hnew
  · intro q hvq
    rw [hres]
    exact getData?_appendAt _ t p q hvq
  · intro r f hnp
    rw [updateAt_lc_frame _ r f _ hnp, hres]
    unfold lcAt
    rw [hnew]
    rfl

/-- C4 witness: the hypothesis and conclusion of `C4_create_child` hold for
creating a child of the root of the three-node chain. -/
theorem C4_create_child_witness :
    getTree? chain3 [] = some chain3 ∧
    ((new_with_parent chain3 [] task0 7).2 = [Event.update chain3.data.id] ∧
      getData? (new_with_parent chain3 [] task0 7).1 ([] ++ [chain3.children.length]) =
        some { id := 7, task := task0, override := some .trace, lastChange := 0,
               linked := true, obs := chain3.data.obs } ∧
      (∀ q, validPath chain3 q = true →
        getData? (new_with_parent chain3 [] task0 7).1 q = getData? chain3 q) ∧
      (∀ r f, ¬ ([] ++ [chain3.children.length]) <+: r →
        lcAt (updateAt (new_with_parent chain3 [] task0 7).1 r f).1
          ([] ++ [chain3.children.length]) = some 0)) :=
  ⟨rfl, C4_create_child chain3 [] task0 7 chain3 rfl⟩

/-- C4 counterexample: creating a child of the root of the three-node chain
leaves the root's `last_change` at its prior value `0`; it is not bumped to
the next generation as the claim states. -/
theorem C4_counterexample :
    lcAt (new_with_parent chain3 [] task0 7).1 [] = lcAt chain3 [] ∧
    ¬ lcAt (new_with_parent chain3 [] task0 7).1 [] =
      some ((chain3.data.lastChange + 1) % usizeSize) := by
  refine ⟨by decide, by decide⟩

/-- C6: `message(n, m, L)` with `L` below `effective_min(n)` (the node's
override if set, else the process-wide default) invokes the thunk zero times
and emits nothing; otherwise it invokes the thunk exactly once and emits
exactly one `Message` event carrying the node's id, the produced message and
`L`. -/
theorem C6_message_filter (globalDefault : PriorityLevel) (d : NodeData)
    (m : Unit → String) (level : PriorityLevel) :
    messageOp globalDefault d m level =
      if level < effectiveMin d globalDefault then (0, [])
      else (1, [Event.message d.id (m ()) level]) := by
  cases h : d.override <;>
    simp [messageOp, min_priority_level, effectiveMin, h]

/-! ### C7: the delta report is absent on a clean subtree -/

/-- C7: when no node of the subtree has `last_change` past the baseline,
`partial_report(baseline)` returns `None` (the root's own `last_change`
fails the entry check of `Reporter::partial_report`). -/
theorem C7_delta_absent (t : Ptree) (baseline : Nat)
    (h : ∀ d ∈ preD t, d.lastChange ≤ baseline) :
    deltaReport t baseline = none := by
  obtain ⟨d, cs⟩ := t
  have hd : d.lastChange ≤ baseline := h d (by simp [preD])
  simp [deltaReport, hd]

/-- C7 witness: the hypothesis and conclusion of `C7_delta_absent` hold on
the three-node chain against baseline `5`. -/
theorem C7_delta_absent_witness :
    (∀ d ∈ preD chain3, d.lastChange ≤ 5) ∧ deltaReport chain3 5 = none :=
  ⟨by decide, C7_delta_absent chain3 5 (by decide)⟩

/-- C3 evaluation at the failing input: attaching the stand-alone `c3child`
to `c3root` swaps the child's observer to the parent's (tag `0`) and returns
the prior observer (tag `1`) — those parts of the claim hold — but the child's
parent back-reference is never set (`linked` stays `false`), so a subsequent
`update` of the child draws its stamp from the child's own counter: the
destination root's clock stays at `1` (the attach bump) instead of advancing,
and only the child's own `last_change` moves to `1`. -/
theorem C3_code_bug_eval :
    (attach_child c3root [] c3child).2.2 = some 1 ∧
    (getData? (attach_child c3root [] c3child).1 [0]).map (·.obs) = some 0 ∧
    (getData? (attach_child c3root [] c3child).1 [0]).map (·.linked) = some false ∧
    lcAt (attach_child c3root [] c3child).1 [] = some 1 ∧
    lcAt (updateAt (attach_child c3root [] c3child).1 [0] (fun tk => tk)).1 [] =
      some 1 ∧
    lcAt (updateAt (attach_child c3root [] c3child).1 [0] (fun tk => tk)).1 [0] =
      some 1 := by
  refine ⟨by decide, by decide, by decide, by decide, by decide, by decide⟩

/-! ### C10: report pruning -/

/-- Strong induction over `Report`: prove a property of a report from the
property at all of its subreports. -/
theorem Report.strongIndOn {P : Report → Prop}
    (h : ∀ id lb c t fr ind st subs lc, (∀ r ∈ subs, P r) →
      P (.mk id lb c t fr ind st subs lc)) : ∀ r, P r
  | .mk id lb c t fr ind st subs lc =>
    h id lb c t fr ind st subs lc (fun r hr => Report.strongIndOn h r)
termination_by r => sizeOf r
decreasing_by
  simp only [Report.mk.sizeOf_spec]
  have := List.sizeOf_lt_of_mem hr
  omega

theorem pruneSubs_eq (g : Nat) (subs : List Report)
    (ih : ∀ r ∈ subs, pruneStep g r = (prunedSpec g r, decide (g ≤ r.last_change))) :
    pruneSubs g subs = prunedSpecL g subs := by
  induction subs with
  | nil => rfl
  | cons r rs ihl =>
    have hr := ih r (by simp)
    have hrs := ihl (fun x hx => ih x (by simp [hx]))
    by_cases hle : g ≤ r.last_change
    · rw [pruneSubs, hr, prunedSpecL, if_pos hle, hrs]
      simp [hle]
    · rw [pruneSubs, hr, prunedSpecL, if_neg hle, hrs]
      simp [hle]

theorem pruneStep_eq (g : Nat) : ∀ r : Report,
    pruneStep g r = (prunedSpec g r, decide (g ≤ r.last_change)) := by
  refine Report.strongIndOn ?_
  intro id lb c t fr ind st subs lc ih
  rw [pruneStep, prunedSpec, pruneSubs_eq g subs ih]
  rfl

/-- C10: `into_pruned(g)` (and the cloning `to_pruned`) returns `None`
exactly when the report's own `last_change` is below `g`, and otherwise
returns the report with exactly those subreports retained, recursively at
every depth, whose `last_change` is at least `g` — all other fields of every
retained report untouched (`prunedSpec` restates the claim's pruning). -/
theorem C10_into_pruned (r : Report) (g : Nat) :
    (r.into_pruned g = if g ≤ r.last_change then some (prunedSpec g r) else none) ∧
    (r.into_pruned g = none ↔ r.last_change < g) ∧
    r.to_pruned g = r.into_pruned g := by
  have hps := pruneStep_eq g r
  refine ⟨?_, ?_, rfl⟩
  · rw [Report.into_pruned, hps]
    by_cases hle : g ≤ r.last_change
    · simp [hle]
    · simp [hle]
  · rw [Report.into_pruned, hps]
    by_cases hle : g ≤ r.last_change
    · rw [decide_eq_true hle]
      constructor
      · intro h
        exact Option.noConfusion h
      · intro h
        omega
    · rw [decide_eq_false hle]
      constructor
      · intro h
        omega
      · intro h
        rfl

/-! ### C8: the aggregation law of the full report -/

theorem satAdd_def (x y : Nat) : satAdd x y = tmin (x + y) := rfl

theorem tmin_add_tmin (a b : Nat) : tmin (a + tmin b) = tmin (a + b) := by
  unfold tmin
  omega

theorem tmin_tmin_add (a b : Nat) : tmin (tmin a + b) = tmin (a + b) := by
  unfold tmin
  omega

theorem satSum_eq_tmin (l : List Nat) : satSum l = tmin l.sum := by
  induction l with
  | nil =>
    show (0 : Nat) = tmin 0
    unfold tmin
    omega
  | cons x l ih =>
    show satAdd x (satSum l) = tmin (x :: l).sum
    rw [ih, satAdd_def, tmin_add_tmin, List.sum_cons]

theorem satAdd_le_max (x y : Nat) : satAdd x y ≤ usizeMax := by
  unfold satAdd
  omega

theorem foldl_satAdd (l : List Nat) : ∀ x, x ≤ usizeMax →
    List.foldl satAdd x l = tmin (x + l.sum) := by
  induction l with
  | nil =>
    intro x hx
    show x = tmin (x + 0)
    unfold tmin
    omega
  | cons y l ih =>
    intro x hx
    show List.foldl satAdd (satAdd x y) l = tmin (x + (y :: l).sum)
    rw [ih (satAdd x y) (satAdd_le_max x y), satAdd_def, tmin_tmin_add,
      List.sum_cons, Nat.add_assoc]

theorem foldPair (rs : List Report) : ∀ own : Nat × Nat,
    List.foldl (fun sum item => (satAdd sum.1 item.discrete.1, satAdd sum.2 item.discrete.2))
      own rs =
    (List.foldl satAdd own.1 (rs.map (·.completed)),
      List.foldl satAdd own.2 (rs.map (·.total))) := by
  induction rs with
  | nil => intro own; rfl
  | cons r rs ih =>
    intro own
    show List.foldl _ (satAdd own.1 r.discrete.1, satAdd own.2 r.discrete.2) rs = _
    rw [ih (satAdd own.1 r.discrete.1, satAdd own.2 r.discrete.2)]
    rfl

theorem tmin_add_sum_tmin (l : List Nat) : ∀ a,
    tmin (a + (l.map tmin).sum) = tmin (a + l.sum) := by
  induction l with
  | nil => intro a; rfl
  | cons x l ih =>
    intro a
    rw [List.map_cons, List.sum_cons, List.sum_cons,
      show a + (tmin x + (l.map tmin).sum) = (a + tmin x) + (l.map tmin).sum by omega,
      ih (a + tmin x),
      show a + tmin x + l.sum = (a + l.sum) + tmin x by omega,
      tmin_add_tmin,
      show a + l.sum + x = a + (x + l.sum) by omega]

theorem reportL_eq_map : ∀ cs : List Ptree, reportL cs = cs.map reportT := by
  intro cs
  induction cs with
  | nil => rfl
  | cons c cs ih => rw [reportL, ih, List.map_cons]

theorem preDL_map_sum (f : NodeData → Nat) : ∀ cs : List Ptree,
    ((preDL cs).map f).sum = (cs.map (fun c => ((preD c).map f).sum)).sum := by
  intro cs
  induction cs with
  | nil => rfl
  | cons c cs ih =>
    rw [preDL, List.map_append, List.sum_append, ih, List.map_cons, List.sum_cons]

theorem sum_effC_le_effT (l : List NodeData) :
    ((l.map (fun d => d.task.effective_discrete.1)).sum ≤
      (l.map (fun d => d.task.effective_discrete.2)).sum) := by
  induction l with
  | nil => simp
  | cons d l ih =>
    simp only [List.map_cons, List.sum_cons]
    have : d.task.effective_discrete.1 ≤ d.task.effective_discrete.2 := by
      unfold Task.effective_discrete
      simp only
      omega
    omega

theorem preD_subset_preDL {cs : List Ptree} {c : Ptree} {x : NodeData}
    (hc : c ∈ cs) (hx : x ∈ preD c) : x ∈ preDL cs := by
  induction cs with
  | nil => simp at hc
  | cons y ys ih =>
    rw [preDL]
    rcases List.mem_cons.mp hc with he | hm
    · subst he
      exact List.mem_append_left _ hx
    · exact List.mem_append_right _ (ih hm)

theorem boundedB_node {d : NodeData} {cs : List Ptree}
    (hb : boundedB (.node d cs) = true) :
    (d.task.completed < usizeSize ∧ d.task.total < usizeSize) ∧
      ∀ c ∈ cs, boundedB c = true := by
  unfold boundedB at hb
  rw [List.all_eq_true] at hb
  constructor
  · have := hb d (by rw [preD]; simp)
    simp only [Bool.and_eq_true, decide_eq_true_eq] at this
    exact this
  · intro c hc
    unfold boundedB
    rw [List.all_eq_true]
    intro x hx
    exact hb x (by rw [preD]; exact List.mem_cons_of_mem d (preD_subset_preDL hc hx))

theorem Report.new_completed (pid : Nat) (lb : Option String) (c t : Nat) (st : State)
    (subs : List Report) (lc : Nat) :
    (Report.new pid lb c t st subs lc).completed = min c t := rfl

theorem Report.new_total (pid : Nat) (lb : Option String) (c t : Nat) (st : State)
    (subs : List Report) (lc : Nat) :
    (Report.new pid lb c t st subs lc).total = max (min c t) t := rfl

/-- C8: the `completed` of a full report is the saturating sum, over all
nodes of the tree, of `effective_completed` = `min(completed, total)`;
likewise `total` with `effective_total` = `max(completed, total)` — given
that the raw counters fit in `usize`, which the Rust representation
guarantees. -/
theorem C8_aggregation : ∀ t : Ptree, boundedB t = true →
    (reportT t).completed =
      satSum ((preD t).map (fun x => x.task.effective_discrete.1)) ∧
    (reportT t).total =
      satSum ((preD t).map (fun x => x.task.effective_discrete.2)) := by
  refine Ptree.strongInd ?_
  intro d cs ih hb
  obtain ⟨⟨hbc, hbt⟩, hbcs⟩ := boundedB_node hb
  have hoc : d.task.effective_discrete.1 ≤ usizeMax := by
    simp only [Task.effective_discrete, usizeMax]
    omega
  have hot : d.task.effective_discrete.2 ≤ usizeMax := by
    simp only [Task.effective_discrete, usizeMax]
    omega
  have hco : d.task.effective_discrete.1 ≤ d.task.effective_discrete.2 := by
    simp only [Task.effective_discrete]
    omega
  have hrt1 : (reportT (Ptree.node d cs)).completed =
      min (List.foldl satAdd d.task.effective_discrete.1 ((reportL cs).map (·.completed)))
        (List.foldl satAdd d.task.effective_discrete.2 ((reportL cs).map (·.total))) := by
    simp only [reportT, foldPair, Report.new_completed]
  have hrt2 : (reportT (Ptree.node d cs)).total =
      max (min (List.foldl satAdd d.task.effective_discrete.1 ((reportL cs).map (·.completed)))
        (List.foldl satAdd d.task.effective_discrete.2 ((reportL cs).map (·.total))))
        (List.foldl satAdd d.task.effective_discrete.2 ((reportL cs).map (·.total))) := by
    simp only [reportT, foldPair, Report.new_total]
  have hsubsC : (reportL cs).map (·.completed) =
      (cs.map (fun c => ((preD c).map (fun x => x.task.effective_discrete.1)).sum)).map
        tmin := by
    rw [reportL_eq_map, List.map_map, List.map_map]
    refine List.map_congr_left ?_
    intro c hc
    show (reportT c).completed = tmin ((preD c).map (fun x => x.task.effective_discrete.1)).sum
    rw [(ih c hc (hbcs c hc)).1, satSum_eq_tmin]
  have hsubsT : (reportL cs).map (·.total) =
      (cs.map (fun c => ((preD c).map (fun x => x.task.effective_discrete.2)).sum)).map
        tmin := by
    rw [reportL_eq_map, List.map_map, List.map_map]
    refine List.map_congr_left ?_
    intro c hc
    show (reportT c).total = tmin ((preD c).map (fun x => x.task.effective_discrete.2)).sum
    rw [(ih c hc (hbcs c hc)).2, satSum_eq_tmin]
  have hA1 : List.foldl satAdd d.task.effective_discrete.1 ((reportL cs).map (·.completed)) =
      tmin (d.task.effective_discrete.1 +
        (cs.map (fun c => ((preD c).map (fun x => x.task.effective_discrete.1)).sum)).sum) := by
    rw [hsubsC, foldl_satAdd _ _ hoc, tmin_add_sum_tmin]
  have hA2 : List.foldl satAdd d.task.effective_discrete.2 ((reportL cs).map (·.total)) =
      tmin (d.task.effective_discrete.2 +
        (cs.map (fun c => ((preD c).map (fun x => x.task.effective_discrete.2)).sum)).sum) := by
    rw [hsubsT, foldl_satAdd _ _ hot, tmin_add_sum_tmin]
  have hgoalC : satSum ((preD (Ptree.node d cs)).map (fun x => x.task.effective_discrete.1)) =
      tmin (d.task.effective_discrete.1 +
        (cs.map (fun c => ((preD c).map (fun x => x.task.effective_discrete.1)).sum)).sum) := by
    rw [satSum_eq_tmin, preD, List.map_cons, List.sum_cons,
      preDL_map_sum (fun x => x.task.effective_discrete.1) cs]
  have hgoalT : satSum ((preD (Ptree.node d cs)).map (fun x => x.task.effective_discrete.2)) =
      tmin (d.task.effective_discrete.2 +
        (cs.map (fun c => ((preD c).map (fun x => x.task.effective_discrete.2)).sum)).sum) := by
    rw [satSum_eq_tmin, preD, List.map_cons, List.sum_cons,
      preDL_map_sum (fun x => x.task.effective_discrete.2) cs]
  have hsums : (cs.map (fun c => ((preD c).map (fun x => x.task.effective_discrete.1)).sum)).sum ≤
      (cs.map (fun c => ((preD c).map (fun x => x.task.effective_discrete.2)).sum)).sum := by
    rw [← preDL_map_sum (fun x => x.task.effective_discrete.1) cs,
      ← preDL_map_sum (fun x => x.task.effective_discrete.2) cs]
    exact sum_effC_le_effT (preDL cs)
  constructor
  · rw [hrt1, hA1, hA2, hgoalC]
    unfold tmin
    omega
  · rw [hrt2, hA1, hA2, hgoalT]
    unfold tmin
    omega

/-- C8 witness: the hypothesis and conclusion of `C8_aggregation` hold on a
concrete chain whose nodes carry `(completed, total)` pairs `(1, 2)`, `(3,
1)` and `(4, 10)`. -/
theorem C8_aggregation_witness :
    boundedB chain8 = true ∧
    ((reportT chain8).completed =
        satSum ((preD chain8).map (fun x => x.task.effective_discrete.1)) ∧
      (reportT chain8).total =
        satSum ((preD chain8).map (fun x => x.task.effective_discrete.2))) :=
  ⟨by decide, C8_aggregation chain8 (by decide)⟩
